import Mathlib

/-! Execution core of the simulator: register values and the ALU / MUL / VEC unit.

A shallow embedding of `src/machine/register_value.h`, `src/machine/execute/vec_op.h`
and `src/machine/execute/alu.cpp`.

Conventions of the embedding:

* a value of an unsigned C++ type of `w` bits is a `Nat` below `2 ^ w`;
* a value of a signed C++ type of `w` bits is an `Int` in `[-2 ^ (w-1), 2 ^ (w-1))`;
* every C++ integral conversion is written out: `toSigned w` (to `intW_t`),
  `ofSigned w` (a signed value to `uintW_t`) and `% 2 ^ w` (unsigned wraparound).
-/

namespace machine

/-! ## Machine integers -/

/-- Conversion of an unsigned value to the signed type of `w` bits: the low `w`
bits of `n` read in two's complement (`(int32_t)x`, `(int64_t)x`, and the
conversion applied by a `return` in a function whose result type is signed). -/
def toSigned (w : Nat) (n : Nat) : Int :=
  if n % 2 ^ w < 2 ^ (w - 1) then ((n % 2 ^ w : Nat) : Int)
  else ((n % 2 ^ w : Nat) : Int) - ((2 ^ w : Nat) : Int)

/-- Conversion of a signed value to the unsigned type of `w` bits: the value
modulo `2 ^ w` (`(uint64_t)x` for a signed `x`, unary minus on an unsigned). -/
def ofSigned (w : Nat) (x : Int) : Nat :=
  (x % ((2 ^ w : Nat) : Int)).toNat

/-- Value of `INT64_MIN`. -/
def INT64_MIN : Int := -(2 ^ 63)

/-- Value of `INT32_MIN`. -/
def INT32_MIN : Int := -(2 ^ 31)

/-- Value of `UINT64_MAX`. -/
def UINT64_MAX : Nat := 2 ^ 64 - 1

/-- Value of `UINT32_MAX`. -/
def UINT32_MAX : Nat := 2 ^ 32 - 1

/-! ## `register_value.h` -/

/-- The scalar register value: `register_storage_t data`, a 64-bit pattern. -/
structure RegisterValue where
  data : Nat
  deriving DecidableEq, Repr

namespace RegisterValue

/-- Constructor `RegisterValue(uint64_t value)`. -/
def of_u64 (value : Nat) : RegisterValue := ⟨value % 2 ^ 64⟩

/-- Constructor `RegisterValue(uint32_t value)`: the value is zero-extended. -/
def of_u32 (value : Nat) : RegisterValue := ⟨value % 2 ^ 32⟩

/-- Constructor `RegisterValue()`. -/
def zero : RegisterValue := ⟨0⟩

/-- Constructor `RegisterValue(int64_t value)`. -/
def of_i64 (value : Int) : RegisterValue := ⟨ofSigned 64 value⟩

/-- Constructor `RegisterValue(int32_t value)`: `data(value)` converts the signed
value to `uint64_t`, which sign-extends it. -/
def of_i32 (value : Int) : RegisterValue := ⟨ofSigned 64 value⟩

/-- Constructor `RegisterValue(int16_t value)`. -/
def of_i16 (value : Int) : RegisterValue := ⟨ofSigned 64 value⟩

/-- Constructor `RegisterValue(int8_t value)`. -/
def of_i8 (value : Int) : RegisterValue := ⟨ofSigned 64 value⟩

/-- Accessor `as_i8`: `(int8_t)data`. -/
def as_i8 (r : RegisterValue) : Int := toSigned 8 r.data

/-- Accessor `as_u8`: `(uint8_t)data`. -/
def as_u8 (r : RegisterValue) : Nat := r.data % 2 ^ 8

/-- Accessor `as_i16`: `(int16_t)data`. -/
def as_i16 (r : RegisterValue) : Int := toSigned 16 r.data

/-- Accessor `as_u16`: `(uint16_t)data`. -/
def as_u16 (r : RegisterValue) : Nat := r.data % 2 ^ 16

/-- Accessor `as_i32`: `(int32_t)data`. -/
def as_i32 (r : RegisterValue) : Int := toSigned 32 r.data

/-- Accessor `as_u32`: `(uint32_t)data`. -/
def as_u32 (r : RegisterValue) : Nat := r.data % 2 ^ 32

/-- Accessor `as_i64`: `(int64_t)data`. -/
def as_i64 (r : RegisterValue) : Int := toSigned 64 r.data

/-- Accessor `as_u64`: `(uint64_t)data`. -/
def as_u64 (r : RegisterValue) : Nat := r.data % 2 ^ 64

end RegisterValue

/-- The lane array `std::array<uint32_t, 32>`. -/
abbrev vector_register_storage_t := Fin 32 → Nat

/-- The vector register value: 32 lanes of 32 bits. -/
structure VectorRegisterValue where
  data : vector_register_storage_t
  deriving DecidableEq

namespace VectorRegisterValue

/-- Constructor `VectorRegisterValue()`: `data({0})` zero-fills the lanes. -/
def zero : VectorRegisterValue := ⟨fun _ => 0⟩

/-- Lane read `operator[]`, that is `data[index]` on the `std::array`. The
array has 32 elements and the operator does not check the index: an index
outside `0..31` has no defined result, which is `none` here. -/
def lane (v : VectorRegisterValue) (index : Nat) : Option Nat :=
  if h : index < 32 then some (v.data ⟨index, h⟩ % 2 ^ 32) else none

end VectorRegisterValue

/-- Lane write `result[i] = x` on a `vector_register_storage_t`; the stored
value is converted to `uint32_t`. An index outside `0..31` is `none`. -/
def vector_register_storage_t.store (r : vector_register_storage_t) (index : Nat) (x : Nat) :
    Option vector_register_storage_t :=
  if h : index < 32 then some (Function.update r ⟨index, h⟩ (x % 2 ^ 32)) else none

/-- The tag `enum RegisterValueType`. -/
inductive RegisterValueType
  | REGISTER_VALUE_TYPE_I
  | REGISTER_VALUE_TYPE_V
  deriving DecidableEq, Repr

/-- The tagged value `struct RegisterValueUnion`: the tag with the member it
names. `I` is built by the constructors from `RegisterValue` and
`register_storage_t`, `V` by those from `VectorRegisterValue` and
`vector_register_storage_t`. -/
inductive RegisterValueUnion
  | I (i : RegisterValue)
  | V (v : VectorRegisterValue)
  deriving DecidableEq

namespace RegisterValueUnion

/-- The field `type`. -/
def type : RegisterValueUnion → RegisterValueType
  | I _ => .REGISTER_VALUE_TYPE_I
  | V _ => .REGISTER_VALUE_TYPE_V

/-- Member access `.i`. On a scalar-tagged value it is the stored scalar. Both
members of the anonymous union start at the same address, so on a
vector-tagged value the read falls on the eight bytes of lanes 0 and 1; they
are taken in the order of a little-endian host (lane 0 is the low half). -/
def i : RegisterValueUnion → RegisterValue
  | I r => r
  | V v => ⟨v.data 0 % 2 ^ 32 + 2 ^ 32 * (v.data 1 % 2 ^ 32)⟩

/-- Member access `.v`. On a vector-tagged value it is the stored vector. On a
scalar-tagged value the lanes past the scalar were never written by the
constructor, so the read has no defined result: `none`. -/
def v : RegisterValueUnion → Option VectorRegisterValue
  | I _ => none
  | V x => some x

end RegisterValueUnion

/-! ## Operation codes -/

/-- Modelled from the spec: the declaration of `enum class AluOp` (`alu_op.h`)
is not among the sources. The spec (Integer ALU family) and the `case` labels of
`alu64_operate` name the operations `ADD, SLL, SLT, SLTU, XOR, SR, OR, AND`.
`invalid raw` stands for a value of the underlying byte that names none of
them, the one the `default:` label receives. -/
inductive AluOp
  | ADD | SLL | SLT | SLTU | XOR | SR | OR | AND
  | invalid (raw : Nat)
  deriving DecidableEq, Repr

/-- Modelled from the spec: the declaration of `enum class MulOp` (`mul_op.h`)
is not among the sources. The spec (Multiply/Divide family) and the `case`
labels of `mul64_operate` name the operations
`MUL, MULH, MULHSU, MULHU, DIV, DIVU, REM, REMU`. `invalid raw` stands for a
value of the underlying byte that names none of them. -/
inductive MulOp
  | MUL | MULH | MULHSU | MULHU | DIV | DIVU | REM | REMU
  | invalid (raw : Nat)
  deriving DecidableEq, Repr

/-- The operations of `enum class VecOp : uint8_t` (`vec_op.h`):
`VADDVV = 0b000, VADDVI = 0b001, VMULVV = 0b010, VREDSUM = 0b011`.
`invalid raw` stands for a value of the underlying byte that names none of
them. -/
inductive VecOp
  | VADDVV | VADDVI | VMULVV | VREDSUM
  | invalid (raw : Nat)
  deriving DecidableEq, Repr

/-- Modelled from the spec: the declaration of `enum class AluComponent`
(`alu.h`) is not among the sources. The `case` labels of
`alu_combined_operate` name the components `ALU, MUL, VEC, PASS`.
`invalid raw` stands for a value of the underlying byte that names none of
them. -/
inductive AluComponent
  | ALU | MUL | VEC | PASS
  | invalid (raw : Nat)
  deriving DecidableEq, Repr

/-- Modelled from the spec: the declaration of `union AluCombinedOp` (`alu.h`)
is not among the sources. `alu_combined_operate` reads it through the members
`alu_op`, `mul_op` and `vec_op`, one per operation family, and reads only the
member of the selected component; the three fields are these three views. -/
structure AluCombinedOp where
  alu_op : AluOp
  mul_op : MulOp
  vec_op : VecOp

/-! ## `alu.cpp` -/

/-- The constant `SHIFT_MASK32 = 0b011111`. -/
def SHIFT_MASK32 : Nat := 0b011111

/-- The constant `SHIFT_MASK64 = 0b111111`. -/
def SHIFT_MASK64 : Nat := 0b111111

/-- The function `alu64_operate`. The operators act on `uint64_t` (wraparound
modulo `2 ^ 64`); the result type is `int64_t`, so every returned value is
converted by `toSigned 64`. In the `SR` case the two branches of the
conditional have types `int64_t` and `uint64_t`, whose common type is
`uint64_t`; the `>>` of the signed value is the sign-propagating shift. -/
def alu64_operate (op : AluOp) (modified : Bool) (a_raw b_raw : RegisterValueUnion) : Int :=
  let a := a_raw.i
  let b := b_raw.i
  let _a := a.as_u64
  let _b := b.as_u64
  match op with
  | .ADD => toSigned 64 ((_a + (if modified then ofSigned 64 (-(_b : Int)) else _b)) % 2 ^ 64)
  | .SLL => toSigned 64 ((_a <<< (_b &&& SHIFT_MASK64)) % 2 ^ 64)
  | .SLT => if a.as_i64 < b.as_i64 then 1 else 0
  | .SLTU => if _a < _b then 1 else 0
  | .XOR => toSigned 64 (_a ^^^ _b)
  | .SR =>
    toSigned 64
      (if modified then ofSigned 64 (a.as_i64 >>> (_b &&& SHIFT_MASK64))
       else _a >>> (_b &&& SHIFT_MASK64))
  | .OR => toSigned 64 (_a ||| _b)
  | .AND => toSigned 64 ((if modified then 2 ^ 64 - 1 - _a else _a) &&& _b)
  | .invalid _ => 0

/-- The function `alu32_operate`. The operators act on `uint32_t` (wraparound
modulo `2 ^ 32`); the result type is `int32_t`, so every returned value is
converted by `toSigned 32`. -/
def alu32_operate (op : AluOp) (modified : Bool) (a_raw b_raw : RegisterValueUnion) : Int :=
  let a := a_raw.i
  let b := b_raw.i
  let _a := a.as_u32
  let _b := b.as_u32
  match op with
  | .ADD => toSigned 32 ((_a + (if modified then ofSigned 32 (-(_b : Int)) else _b)) % 2 ^ 32)
  | .SLL => toSigned 32 ((_a <<< (_b &&& SHIFT_MASK32)) % 2 ^ 32)
  | .SLT => if a.as_i32 < b.as_i32 then 1 else 0
  | .SLTU => if _a < _b then 1 else 0
  | .XOR => toSigned 32 (_a ^^^ _b)
  | .SR =>
    toSigned 32
      (if modified then ofSigned 32 (a.as_i32 >>> (_b &&& SHIFT_MASK32))
       else _a >>> (_b &&& SHIFT_MASK32))
  | .OR => toSigned 32 (_a ||| _b)
  | .AND => toSigned 32 ((if modified then 2 ^ 32 - 1 - _a else _a) &&& _b)
  | .invalid _ => 0

/-- Modelled from the spec: `mulh64` of `common/polyfills/mulh64.h`, which is
not among the sources. The spec asks for the high half of the full 128-bit
product of the two signed operands. -/
def mulh64 (a b : Int) : Int := toSigned 64 (ofSigned 64 ((a * b) / 2 ^ 64))

/-- Modelled from the spec: `mulhsu64` of `common/polyfills/mulh64.h`: the
high half of the full 128-bit product, signed times unsigned. -/
def mulhsu64 (a : Int) (b : Nat) : Int := toSigned 64 (ofSigned 64 ((a * (b : Int)) / 2 ^ 64))

/-- Modelled from the spec: `mulhu64` of `common/polyfills/mulh64.h`: the high
half of the full 128-bit product, unsigned times unsigned. -/
def mulhu64 (a b : Nat) : Nat := (a * b / 2 ^ 64) % 2 ^ 64

/-- The function `mul64_operate`; the result type is `int64_t`. Signed `/` and
`%` are the truncating division of C++ (`Int.tdiv`, `Int.tmod`). -/
def mul64_operate (op : MulOp) (a_raw b_raw : RegisterValueUnion) : Int :=
  let a := a_raw.i
  let b := b_raw.i
  match op with
  | .MUL => toSigned 64 ((a.as_u64 * b.as_u64) % 2 ^ 64)
  | .MULH => mulh64 a.as_i64 b.as_i64
  | .MULHSU => mulhsu64 a.as_i64 b.as_u64
  | .MULHU => toSigned 64 (mulhu64 a.as_u64 b.as_u64)
  | .DIV =>
    if b.as_i64 = 0 then -1
    else if a.as_i64 = INT64_MIN ∧ b.as_i64 = -1 then INT64_MIN
    else Int.tdiv a.as_i64 b.as_i64
  | .DIVU => toSigned 64 (if b.as_u64 = 0 then UINT64_MAX else a.as_u64 / b.as_u64)
  | .REM =>
    if b.as_i64 = 0 then a.as_i64
    else if a.as_i64 = INT64_MIN ∧ b.as_i64 = -1 then 0
    else Int.tmod a.as_i64 b.as_i64
  | .REMU => toSigned 64 (if b.as_u64 = 0 then a.as_u64 else a.as_u64 % b.as_u64)
  | .invalid _ => 0

/-- The function `mul32_operate`; the result type is `int32_t`. In the three
high-half cases the operands are converted to `uint64_t` (a signed operand by
`ofSigned 64`), multiplied modulo `2 ^ 64` and shifted right by 32. -/
def mul32_operate (op : MulOp) (a_raw b_raw : RegisterValueUnion) : Int :=
  let a := a_raw.i
  let b := b_raw.i
  match op with
  | .MUL => toSigned 32 ((a.as_u32 * b.as_u32) % 2 ^ 32)
  | .MULH => toSigned 32 (((ofSigned 64 a.as_i32 * ofSigned 64 b.as_i32) % 2 ^ 64) >>> 32)
  | .MULHSU => toSigned 32 (((ofSigned 64 a.as_i32 * b.as_u32) % 2 ^ 64) >>> 32)
  | .MULHU => toSigned 32 (((a.as_u32 * b.as_u32) % 2 ^ 64) >>> 32)
  | .DIV =>
    if b.as_i32 = 0 then -1
    else if a.as_i32 = INT32_MIN ∧ b.as_i32 = -1 then INT32_MIN
    else Int.tdiv a.as_i32 b.as_i32
  | .DIVU => toSigned 32 (if b.as_u32 = 0 then UINT32_MAX else a.as_u32 / b.as_u32)
  | .REM =>
    if b.as_i32 = 0 then a.as_i32
    else if a.as_i32 = INT32_MIN ∧ b.as_i32 = -1 then 0
    else Int.tmod a.as_i32 b.as_i32
  | .REMU => toSigned 32 (if b.as_u32 = 0 then a.as_u32 else a.as_u32 % b.as_u32)
  | .invalid _ => 0

/-- The loop `for (size_t i = 0; i < n; i++) body`, in ascending order of `i`,
over a state `σ`; an iteration without a defined result ends the run with
`none`. -/
def forLoop {σ : Type} (body : Nat → σ → Option σ) : Nat → σ → Option σ
  | 0, s => some s
  | n + 1, s => (forLoop body n s).bind (body n)

/-- The function `vec32_operate`. The local `result` of the three lane-wise
cases is declared without an initialiser, so its lanes start with whatever the
storage held: that content is the parameter `uninit`. The text printed by the
`VADDVV` and `VMULVV` cases reads the lanes the arithmetic loop has already
read and is not part of the result. -/
def vec32_operate (op : VecOp) (a b : RegisterValueUnion) (vl : Nat)
    (uninit : vector_register_storage_t) : Option RegisterValueUnion :=
  match op with
  | .VADDVV =>
    (forLoop (fun i result => do
        let av ← a.v
        let bv ← b.v
        let x ← av.lane i
        let y ← bv.lane i
        result.store i ((x + y) % 2 ^ 32)) vl uninit).map
      (fun result => RegisterValueUnion.V ⟨result⟩)
  | .VADDVI =>
    (forLoop (fun i result => do
        let av ← a.v
        let x ← av.lane i
        result.store i ((x + b.i.as_u32) % 2 ^ 32)) vl uninit).map
      (fun result => RegisterValueUnion.V ⟨result⟩)
  | .VMULVV =>
    (forLoop (fun i result => do
        let av ← a.v
        let bv ← b.v
        let x ← av.lane i
        let y ← bv.lane i
        result.store i ((x * y) % 2 ^ 32)) vl uninit).map
      (fun result => RegisterValueUnion.V ⟨result⟩)
  | .VREDSUM =>
    (forLoop (fun i result => do
        let bv ← b.v
        let y ← bv.lane i
        pure ((result + y) % 2 ^ 32)) vl a.i.as_u32).map
      (fun result => RegisterValueUnion.I (RegisterValue.of_u32 result))
  | .invalid _ => some (RegisterValueUnion.I (RegisterValue.of_u64 0))

/-- The function `alu_combined_operate`. In the `ALU` and `MUL` cases the
conditional has branches of types `int32_t` and `int64_t`; its value is an
`int64_t` and the constructor `RegisterValue(int64_t)` stores it. `vl` is a
`uint8_t`. -/
def alu_combined_operate (op : AluCombinedOp) (component : AluComponent) (w_operation : Bool)
    (modified : Bool) (a b : RegisterValueUnion) (vl : Nat)
    (uninit : vector_register_storage_t) : Option RegisterValueUnion :=
  match component with
  | .ALU =>
    some (RegisterValueUnion.I (RegisterValue.of_i64
      (if w_operation then alu32_operate op.alu_op modified a b
       else alu64_operate op.alu_op modified a b)))
  | .MUL =>
    some (RegisterValueUnion.I (RegisterValue.of_i64
      (if w_operation then mul32_operate op.mul_op a b
       else mul64_operate op.mul_op a b)))
  | .VEC => vec32_operate op.vec_op a b vl uninit
  | .PASS => some a
  | .invalid _ => some (RegisterValueUnion.I (RegisterValue.of_u64 0))

/-! ## Memory frontend: `frontend_memory.cpp` -/

/-- Lane read `value[i]` on a `vector_register_storage_t`. An index outside
`0..31` has no defined result: `none`. -/
def vector_register_storage_t.get (r : vector_register_storage_t) (index : Nat) : Option Nat :=
  if h : index < 32 then some (r ⟨index, h⟩ % 2 ^ 32) else none

/-- Modelled from the spec: the class `Address` (`memory/address.h`) is not among
the sources; the spec calls it an address-sized value. It is taken as a 64-bit
number. -/
abbrev Address := Nat

/-- Modelled from the spec: `Address::operator+` with an offset, on 64-bit
addresses: the sum wraps at `2 ^ 64`. -/
def Address.add (address : Address) (offset : Nat) : Address := (address + offset) % 2 ^ 64

/-- Modelled from the spec: `enum Endian` of `common/endian.h`, which is not
among the sources: the byte order of the simulated machine or of the host. -/
inductive Endian
  | LITTLE
  | BIG
  deriving DecidableEq, Repr

/-- The `n` bytes of an unsigned value, least significant byte first. -/
def bytes_le : Nat → Nat → List Nat
  | 0, _ => []
  | n + 1, value => value % 256 :: bytes_le n (value / 256)

/-- The unsigned value of a list of bytes, least significant byte first. -/
def of_bytes_le : List Nat → Nat
  | [] => 0
  | b :: bs => b % 256 + 256 * of_bytes_le bs

/-- Modelled from the spec: `byteswap` of `common/endian.h`: the value of `n`
bytes with the order of all its bytes reversed (the full transferred width is
swapped, not sub-fields). -/
def byteswap (n : Nat) (value : Nat) : Nat := of_bytes_le (bytes_le n value).reverse

/-- Modelled from the spec: `byteswap_if` of `common/endian.h`: the value is
byte-swapped if and only if the condition holds. -/
def byteswap_if (n : Nat) (value : Nat) (condition : Bool) : Nat :=
  if condition then byteswap n value else value

/-- The object representation of an `n`-byte unsigned integer on a host of the
given byte order: what `&value` points to, in ascending address order. -/
def to_bytes (host : Endian) (n : Nat) (value : Nat) : List Nat :=
  match host with
  | .LITTLE => bytes_le n value
  | .BIG => (bytes_le n value).reverse

/-- The unsigned integer that a host of the given byte order reads from bytes
in ascending address order. -/
def of_bytes (host : Endian) (bytes : List Nat) : Nat :=
  match host with
  | .LITTLE => of_bytes_le bytes
  | .BIG => of_bytes_le bytes.reverse

/-- Modelled from the spec: one call of the memory backend interface, as the
backend sees it: whether it is a `write`, its address and its length. -/
structure BackendAccess where
  is_write : Bool
  address : Nat
  length : Nat
  deriving DecidableEq, Repr

/-- Modelled from the spec: the class `FrontendMemory` is declared in
`memory/frontend_memory.h`, which is not among the sources. The field
`simulated_machine_endian` is the one the constructor in `frontend_memory.cpp`
sets. The backend behind the virtual `read` and `write` is, in the words of the
spec, an abstract byte-addressable store: `cells` gives the byte held at each
of the `2 ^ 64` addresses and `calls` records the backend calls made so far,
oldest first. -/
structure FrontendMemory where
  simulated_machine_endian : Endian
  cells : Nat → Nat
  calls : List BackendAccess

/-- Modelled from the spec: the byte store of the backend on a write: the bytes
of `buffer` copied into the cells from `address` on, in ascending order; the
address wraps at `2 ^ 64`. -/
def store_bytes (cells : Nat → Nat) : Nat → List Nat → Nat → Nat
  | _, [] => cells
  | address, b :: bs => store_bytes (Function.update cells (address % 2 ^ 64) (b % 256))
      (address + 1) bs

/-- Modelled from the spec: the byte store of the backend on a read: the `size`
bytes held by the cells from `address` on, in ascending order. -/
def load_bytes (cells : Nat → Nat) (address : Nat) : Nat → List Nat
  | 0 => []
  | size + 1 => cells (address % 2 ^ 64) % 256 :: load_bytes cells (address + 1) size

namespace FrontendMemory

/-- Constructor `FrontendMemory(Endian simulated_endian)`, over a backend in a
given state. -/
def mk_with (simulated_endian : Endian) (cells : Nat → Nat) : FrontendMemory :=
  ⟨simulated_endian, cells, []⟩

/-- Modelled from the spec: the backend `write(destination, source, size,
options)`: the bytes of the buffer are stored at consecutive addresses; the
result `changed` is true exactly when some written byte differs from the
previous content. The options (the access effects) do not enter a byte store
and are left out. -/
def write (fm : FrontendMemory) (destination : Address) (source : List Nat) :
    Bool × FrontendMemory :=
  (decide (load_bytes fm.cells destination source.length ≠ source.map (· % 256)),
   { fm with
     cells := store_bytes fm.cells destination source
     calls := fm.calls ++ [⟨true, destination, source.length⟩] })

/-- Modelled from the spec: the backend `read(destination, source, size,
options)`: the bytes held at `size` consecutive addresses are copied to the
buffer, which is returned. -/
def read (fm : FrontendMemory) (source : Address) (size : Nat) : List Nat × FrontendMemory :=
  (load_bytes fm.cells source size,
   { fm with calls := fm.calls ++ [⟨false, source, size⟩] })

/-- The template `read_generic<T>`, with `n = sizeof(T)`. `NATIVE_ENDIAN` is
the byte order of the host, a constant of `common/endian.h`. -/
def read_generic (NATIVE_ENDIAN : Endian) (n : Nat) (fm : FrontendMemory) (address : Address) :
    Nat × FrontendMemory :=
  let r := fm.read address n
  let value := of_bytes NATIVE_ENDIAN r.1
  (byteswap_if n value (fm.simulated_machine_endian != NATIVE_ENDIAN), r.2)

/-- The template `write_generic<T>`, with `n = sizeof(T)`; the result is the
field `changed` of what the backend `write` returns. -/
def write_generic (NATIVE_ENDIAN : Endian) (n : Nat) (fm : FrontendMemory) (address : Address)
    (value : Nat) : Bool × FrontendMemory :=
  let swapped_value := byteswap_if n value (fm.simulated_machine_endian != NATIVE_ENDIAN)
  fm.write address (to_bytes NATIVE_ENDIAN n swapped_value)

/-- The function `write_u8`. -/
def write_u8 (NATIVE_ENDIAN : Endian) (fm : FrontendMemory) (address : Address) (value : Nat) :
    Bool × FrontendMemory :=
  write_generic NATIVE_ENDIAN 1 fm address value

/-- The function `write_u16`. -/
def write_u16 (NATIVE_ENDIAN : Endian) (fm : FrontendMemory) (address : Address) (value : Nat) :
    Bool × FrontendMemory :=
  write_generic NATIVE_ENDIAN 2 fm address value

/-- The function `write_u32`. -/
def write_u32 (NATIVE_ENDIAN : Endian) (fm : FrontendMemory) (address : Address) (value : Nat) :
    Bool × FrontendMemory :=
  write_generic NATIVE_ENDIAN 4 fm address value

/-- The function `write_u64`. -/
def write_u64 (NATIVE_ENDIAN : Endian) (fm : FrontendMemory) (address : Address) (value : Nat) :
    Bool × FrontendMemory :=
  write_generic NATIVE_ENDIAN 8 fm address value

/-- The function `read_u8`. -/
def read_u8 (NATIVE_ENDIAN : Endian) (fm : FrontendMemory) (address : Address) :
    Nat × FrontendMemory :=
  read_generic NATIVE_ENDIAN 1 fm address

/-- The function `read_u16`. -/
def read_u16 (NATIVE_ENDIAN : Endian) (fm : FrontendMemory) (address : Address) :
    Nat × FrontendMemory :=
  read_generic NATIVE_ENDIAN 2 fm address

/-- The function `read_u32`. -/
def read_u32 (NATIVE_ENDIAN : Endian) (fm : FrontendMemory) (address : Address) :
    Nat × FrontendMemory :=
  read_generic NATIVE_ENDIAN 4 fm address

/-- The function `read_u64`. -/
def read_u64 (NATIVE_ENDIAN : Endian) (fm : FrontendMemory) (address : Address) :
    Nat × FrontendMemory :=
  read_generic NATIVE_ENDIAN 8 fm address

/-- The function `write_vec_u32`: `flag` starts `true` and each lane does
`flag &= write_generic<uint32_t>(address + i * sizeof(uint32_t), value[i])`.
`vl` is a `uint8_t`. -/
def write_vec_u32 (NATIVE_ENDIAN : Endian) (fm : FrontendMemory) (address : Address)
    (value : vector_register_storage_t) (vl : Nat) : Option (Bool × FrontendMemory) :=
  forLoop (fun i (s : Bool × FrontendMemory) =>
      (value.get i).map (fun x =>
        let w := write_generic NATIVE_ENDIAN 4 s.2 (Address.add address (i * 4)) x
        (s.1 && w.1, w.2)))
    vl (true, fm)

/-- The function `read_vec_u32`. The local `value` is declared without an
initialiser; its starting content is the parameter `uninit`. -/
def read_vec_u32 (NATIVE_ENDIAN : Endian) (fm : FrontendMemory) (address : Address) (vl : Nat)
    (uninit : vector_register_storage_t) : Option (vector_register_storage_t × FrontendMemory) :=
  forLoop (fun i (s : vector_register_storage_t × FrontendMemory) =>
      let r := read_generic NATIVE_ENDIAN 4 s.2 (Address.add address (i * 4))
      (s.1.store i r.1).map (fun value => (value, r.2)))
    vl (uninit, fm)

end FrontendMemory

/-- Modelled from the spec: `enum AccessControl` is not declared in the
sources. The spec (memory access descriptor) and the `case` labels of
`write_ctl` and `read_ctl` name the codes: no-op, signed and unsigned 8-, 16-,
32- and 64-bit scalar, and the 32-bit-lane vector. `invalid raw` stands for a
value of the enumeration type that is none of them, the one the `default:`
label receives. -/
inductive AccessControl
  | AC_NONE
  | AC_I8 | AC_U8 | AC_I16 | AC_U16 | AC_I32 | AC_U32 | AC_I64 | AC_U64
  | AC_V32
  | invalid (raw : Nat)
  deriving DecidableEq, Repr

/-- Modelled from the spec: the kinds of `SIMULATOR_EXCEPTION`
(`simulator_exception.h` is not among the sources) that the sources raise:
`UnknownMemoryControl` in `frontend_memory.cpp` and the sanity assertion of
`registers.h`. -/
inductive SimulatorException
  | UnknownMemoryControl
  | Sanity
  deriving DecidableEq, Repr

/-- How a call that may `throw` ends: with a value or with an exception. -/
inductive Completion (α : Type)
  | returns (value : α)
  | throws (exception : SimulatorException)
  deriving DecidableEq

namespace FrontendMemory

/-- The function `write_ctl`, which returns nothing: the result is how the call
ends and the state of the frontend after it. The scalar cases call `write_u8`
.. `write_u64` and drop their result. `none` is a call without defined
behaviour (a lane index outside the array, the vector member of a scalar-tagged
value). -/
def write_ctl (NATIVE_ENDIAN : Endian) (fm : FrontendMemory) (ctl : AccessControl)
    (offset : Address) (value : RegisterValueUnion) (vl : Nat) :
    Option (Completion Unit × FrontendMemory) :=
  match ctl with
  | .AC_NONE => some (.returns (), fm)
  | .AC_I8 | .AC_U8 => some (.returns (), (write_u8 NATIVE_ENDIAN fm offset value.i.as_u8).2)
  | .AC_I16 | .AC_U16 => some (.returns (), (write_u16 NATIVE_ENDIAN fm offset value.i.as_u16).2)
  | .AC_I32 | .AC_U32 => some (.returns (), (write_u32 NATIVE_ENDIAN fm offset value.i.as_u32).2)
  | .AC_I64 | .AC_U64 => some (.returns (), (write_u64 NATIVE_ENDIAN fm offset value.i.as_u64).2)
  | .AC_V32 =>
    value.v.bind (fun vec =>
      (write_vec_u32 NATIVE_ENDIAN fm offset vec.data vl).map (fun w => (.returns (), w.2)))
  | .invalid _ => some (.throws .UnknownMemoryControl, fm)

/-- The function `read_ctl`. An argument of type `uint8_t` or `uint16_t` is
promoted to `int`, so `RegisterValue(read_u8(address))` and
`RegisterValue(read_u16(address))` select the constructor from `int32_t`, as
does `RegisterValue(0)`. -/
def read_ctl (NATIVE_ENDIAN : Endian) (fm : FrontendMemory) (ctl : AccessControl)
    (address : Address) (vl : Nat) (uninit : vector_register_storage_t) :
    Option (Completion RegisterValueUnion × FrontendMemory) :=
  match ctl with
  | .AC_NONE => some (.returns (.I (RegisterValue.of_i32 0)), fm)
  | .AC_I8 =>
    let r := read_u8 NATIVE_ENDIAN fm address
    some (.returns (.I (RegisterValue.of_i8 (toSigned 8 r.1))), r.2)
  | .AC_U8 =>
    let r := read_u8 NATIVE_ENDIAN fm address
    some (.returns (.I (RegisterValue.of_i32 (r.1 : Int))), r.2)
  | .AC_I16 =>
    let r := read_u16 NATIVE_ENDIAN fm address
    some (.returns (.I (RegisterValue.of_i16 (toSigned 16 r.1))), r.2)
  | .AC_U16 =>
    let r := read_u16 NATIVE_ENDIAN fm address
    some (.returns (.I (RegisterValue.of_i32 (r.1 : Int))), r.2)
  | .AC_I32 =>
    let r := read_u32 NATIVE_ENDIAN fm address
    some (.returns (.I (RegisterValue.of_i32 (toSigned 32 r.1))), r.2)
  | .AC_U32 =>
    let r := read_u32 NATIVE_ENDIAN fm address
    some (.returns (.I (RegisterValue.of_u32 r.1)), r.2)
  | .AC_I64 =>
    let r := read_u64 NATIVE_ENDIAN fm address
    some (.returns (.I (RegisterValue.of_i64 (toSigned 64 r.1))), r.2)
  | .AC_U64 =>
    let r := read_u64 NATIVE_ENDIAN fm address
    some (.returns (.I (RegisterValue.of_u64 r.1)), r.2)
  | .AC_V32 =>
    (read_vec_u32 NATIVE_ENDIAN fm address vl uninit).map
      (fun r => (.returns (.V ⟨r.1⟩), r.2))
  | .invalid _ => some (.throws .UnknownMemoryControl, fm)

end FrontendMemory

/-! ## Register identifiers: `registers.h` -/

/-- The constant `REGISTER_COUNT`. -/
def REGISTER_COUNT : Nat := 32

/-- Modelled from the spec: the macro `SANITY_ASSERT(condition, message)` of
`simulator_exception.h`, which is not among the sources: it raises the sanity
exception when the condition does not hold, and does nothing otherwise. -/
def SANITY_ASSERT (condition : Bool) : Completion Unit :=
  if condition then .returns () else .throws .Sanity

/-- The class `RegisterId`: the field `uint8_t data`. -/
structure RegisterId where
  data : Nat
  deriving DecidableEq, Repr

namespace RegisterId

/-- The constructor `RegisterId(uint8_t value)`: `data(value)`, then
`SANITY_ASSERT(value < REGISTER_COUNT, ...)`. The argument is a `uint8_t`. -/
def of_u8 (value : Nat) : Completion RegisterId :=
  match SANITY_ASSERT (decide (value < REGISTER_COUNT)) with
  | .returns _ => .returns ⟨value⟩
  | .throws exception => .throws exception

/-- The constructor `RegisterId()`, which delegates to `RegisterId(0)`. -/
def of_nothing : Completion RegisterId := of_u8 0

/-- The conversion `operator size_t()`. -/
def to_size_t (id : RegisterId) : Nat := id.data

end RegisterId

/-- The literal operator `operator"" _reg(unsigned long long value)`: it
returns `{ static_cast<uint8_t>(value) }`, so the value is reduced modulo
`2 ^ 8` before the constructor sees it. -/
def _reg (value : Nat) : Completion RegisterId := RegisterId.of_u8 (value % 2 ^ 8)

/-- The literal operator `operator"" _vreg(unsigned long long value)`, with the
same body as `_reg`. -/
def _vreg (value : Nat) : Completion RegisterId := RegisterId.of_u8 (value % 2 ^ 8)

/-! ## Notions used to state the properties -/

/-- The 32-bit content of lane `i` of a lane array, and 0 for an index outside
`0..31`. -/
def lane_or_zero (lanes : vector_register_storage_t) (i : Nat) : Nat :=
  if h : i < 32 then lanes ⟨i, h⟩ % 2 ^ 32 else 0

/-- The value that `read_ctl` returns right after `write_ctl` with the same
access-control code, address and vector length. -/
def write_then_read (NATIVE_ENDIAN : Endian) (fm : FrontendMemory) (ctl : AccessControl)
    (address : Address) (value : RegisterValueUnion) (vl : Nat)
    (uninit : vector_register_storage_t) : Option (Completion RegisterValueUnion) :=
  (fm.write_ctl NATIVE_ENDIAN ctl address value vl).bind
    (fun w => (w.2.read_ctl NATIVE_ENDIAN ctl address vl uninit).map (fun r => r.1))

/-- The frame property of one scalar `write_ctl` of `n` bytes: the call returns,
leaving a state `w`; every cell that is none of the `n` cells from `address`
on (addresses taken modulo `2 ^ 64`) holds what it held before, and when the
transfer does not run past the last address these are the cells outside the
interval from `address` to `address + n`; the cells of `w` are the old cells
with the low `8 * n` bits of the value stored in the byte order of the
simulated machine; a value with the same low `8 * n` bits and any upper bits
`hi` leaves the same state `w`; and the backend saw one write of `n` bytes at
`address`. -/
def scalar_write_confined (NATIVE_ENDIAN : Endian) (fm : FrontendMemory) (ctl : AccessControl)
    (address : Address) (value : RegisterValueUnion) (vl : Nat) (n : Nat) (hi : Nat) : Prop :=
  ∃ w : FrontendMemory,
    fm.write_ctl NATIVE_ENDIAN ctl address value vl = some (.returns (), w)
    ∧ (∀ c, (∀ k, k < n → (address + k) % 2 ^ 64 ≠ c) → w.cells c = fm.cells c)
    ∧ (address + n ≤ 2 ^ 64 → ∀ c, c < address ∨ address + n ≤ c → w.cells c = fm.cells c)
    ∧ w.cells = store_bytes fm.cells address
        (to_bytes fm.simulated_machine_endian n (value.i.data % 2 ^ (8 * n)))
    ∧ fm.write_ctl NATIVE_ENDIAN ctl address
        (.I ⟨value.i.data % 2 ^ (8 * n) + 2 ^ (8 * n) * hi⟩) vl = some (.returns (), w)
    ∧ w.calls = fm.calls ++ [⟨true, address, n⟩]

/-! ## Facts about the machine-integer conversions -/

/-- The signed reading of 32 bits is a value of `int32_t`. -/
theorem toSigned32_range (n : Nat) : -(2 ^ 31) ≤ toSigned 32 n ∧ toSigned 32 n < 2 ^ 31 := by
  unfold toSigned
  split <;> omega

/-- The signed reading of 64 bits is a value of `int64_t`. -/
theorem toSigned64_range (n : Nat) : -(2 ^ 63) ≤ toSigned 64 n ∧ toSigned 64 n < 2 ^ 63 := by
  unfold toSigned
  split <;> omega

/-- Converting the signed reading back gives the low 32 bits. -/
theorem ofSigned32_toSigned (n : Nat) : ofSigned 32 (toSigned 32 n) = n % 2 ^ 32 := by
  unfold ofSigned toSigned
  split <;> omega

/-- Converting the signed reading back gives the low 64 bits. -/
theorem ofSigned64_toSigned (n : Nat) : ofSigned 64 (toSigned 64 n) = n % 2 ^ 64 := by
  unfold ofSigned toSigned
  split <;> omega

/-- A value of `int32_t` survives the conversion to `uint32_t` and back. -/
theorem toSigned32_ofSigned (x : Int) (h1 : -(2 ^ 31) ≤ x) (h2 : x < 2 ^ 31) :
    toSigned 32 (ofSigned 32 x) = x := by
  unfold ofSigned toSigned
  split <;> omega

/-- A value of `int64_t` survives the conversion to `uint64_t` and back. -/
theorem toSigned64_ofSigned (x : Int) (h1 : -(2 ^ 63) ≤ x) (h2 : x < 2 ^ 63) :
    toSigned 64 (ofSigned 64 x) = x := by
  unfold ofSigned toSigned
  split <;> omega

/-- Reading as signed looks at the low 32 bits only. -/
theorem toSigned32_mod (n : Nat) : toSigned 32 (n % 2 ^ 32) = toSigned 32 n := by
  unfold toSigned
  simp

/-- Reading as signed looks at the low 64 bits only. -/
theorem toSigned64_mod (n : Nat) : toSigned 64 (n % 2 ^ 64) = toSigned 64 n := by
  unfold toSigned
  simp

/-! ## Facts about the truncating division of C++ -/

/-- The truncated quotient of two values of a signed type is a value of that
type, the overflow case apart. -/
theorem tdiv_in_range (m : Int) (a b : Int) (ha1 : -m ≤ a) (ha2 : a < m)
    (hov : ¬ (a = -m ∧ b = -1)) : -m ≤ a.tdiv b ∧ a.tdiv b < m := by
  have hq : (a.tdiv b).natAbs = a.natAbs / b.natAbs := Int.natAbs_tdiv a b
  by_cases h1 : b = 1
  · subst h1; rw [Int.tdiv_one]; exact ⟨ha1, ha2⟩
  by_cases h2 : b = -1
  · subst h2
    have : a.tdiv (-1) = -a := by rw [Int.tdiv_neg, Int.tdiv_one]
    rw [this]
    have : a ≠ -m := fun h => hov ⟨h, rfl⟩
    omega
  by_cases h0 : b = 0
  · subst h0; rw [Int.tdiv_zero]; omega
  have hb2 : 2 ≤ b.natAbs := by omega
  have hle : a.natAbs / b.natAbs ≤ a.natAbs / 2 := Nat.div_le_div_left hb2 (by decide)
  omega

/-- The truncated remainder lies between zero and the dividend. -/
theorem tmod_between (a b : Int) :
    (0 ≤ a → 0 ≤ a.tmod b ∧ a.tmod b ≤ a) ∧ (a ≤ 0 → a ≤ a.tmod b ∧ a.tmod b ≤ 0) := by
  have key : ∀ x y : Nat, ((x % y : Nat) : Int) ≤ (x : Int) ∧ (0 : Int) ≤ ((x % y : Nat) : Int) :=
    fun x y => ⟨by exact_mod_cast Nat.mod_le x y, Int.ofNat_nonneg _⟩
  cases a with
  | ofNat x =>
    cases b with
    | ofNat y =>
      have := key x y
      simp only [Int.tmod, Int.ofNat_eq_coe]
      omega
    | negSucc y =>
      have := key x (Nat.succ y)
      simp only [Int.tmod, Int.ofNat_eq_coe]
      omega
  | negSucc x =>
    cases b with
    | ofNat y =>
      have := key (Nat.succ x) y
      simp only [Int.tmod, Int.ofNat_eq_coe, Int.negSucc_eq]
      omega
    | negSucc y =>
      have := key (Nat.succ x) (Nat.succ y)
      simp only [Int.tmod, Int.ofNat_eq_coe, Int.negSucc_eq]
      omega

/-! ## The claims -/

/-- C1: signed `DIV` is defined for every pair of operands at both widths.
`mul64_operate` returns -1 when `b` read as a signed 64-bit value is 0, returns
`INT64_MIN` when `a = INT64_MIN` and `b = -1`, and otherwise the quotient of the
signed values truncated toward zero; the value returned always fits `int64_t`,
so the division that is evaluated never overflows. `mul32_operate` does the same
on the low 32 bits of `a` and `b`, with `INT32_MIN`. -/
theorem div_signed_defined (a b : RegisterValueUnion) :
    (mul64_operate .DIV a b =
        if b.i.as_i64 = 0 then -1
        else if a.i.as_i64 = INT64_MIN ∧ b.i.as_i64 = -1 then INT64_MIN
        else Int.tdiv a.i.as_i64 b.i.as_i64)
    ∧ (INT64_MIN ≤ mul64_operate .DIV a b ∧ mul64_operate .DIV a b < 2 ^ 63)
    ∧ (mul32_operate .DIV a b =
        if toSigned 32 b.i.as_u32 = 0 then -1
        else if toSigned 32 a.i.as_u32 = INT32_MIN ∧ toSigned 32 b.i.as_u32 = -1 then INT32_MIN
        else Int.tdiv (toSigned 32 a.i.as_u32) (toSigned 32 b.i.as_u32))
    ∧ (INT32_MIN ≤ mul32_operate .DIV a b ∧ mul32_operate .DIV a b < 2 ^ 31) := by
  have ha64 := toSigned64_range a.i.data
  have ha32 := toSigned32_range a.i.data
  refine ⟨rfl, ?_, ?_, ?_⟩
  · simp only [mul64_operate, RegisterValue.as_i64, INT64_MIN]
    split
    · omega
    · split
      · omega
      · rename_i h0 hov
        exact tdiv_in_range (2 ^ 63) _ _ ha64.1 ha64.2 hov
  · simp only [mul32_operate, RegisterValue.as_i32, RegisterValue.as_u32, toSigned32_mod]
  · simp only [mul32_operate, RegisterValue.as_i32, INT32_MIN]
    split
    · omega
    · split
      · omega
      · rename_i h0 hov
        exact tdiv_in_range (2 ^ 31) _ _ ha32.1 ha32.2 hov

/-- C2: signed `REM` is defined for every pair of operands at both widths.
`mul64_operate` returns the dividend `a` when `b = 0`, returns 0 when
`a = INT64_MIN` and `b = -1`, and otherwise `a - b * trunc(a / b)` on the signed
values; the remainder is zero or has the sign of the dividend and fits
`int64_t`. `mul32_operate` does the same on the low 32 bits of `a` and `b`, with
`INT32_MIN`. -/
theorem rem_signed_defined (a b : RegisterValueUnion) :
    (mul64_operate .REM a b =
        if b.i.as_i64 = 0 then a.i.as_i64
        else if a.i.as_i64 = INT64_MIN ∧ b.i.as_i64 = -1 then 0
        else a.i.as_i64 - b.i.as_i64 * Int.tdiv a.i.as_i64 b.i.as_i64)
    ∧ ((a.i.as_i64 < 0 ∨ 0 ≤ mul64_operate .REM a b)
        ∧ (0 < a.i.as_i64 ∨ mul64_operate .REM a b ≤ 0))
    ∧ (INT64_MIN ≤ mul64_operate .REM a b ∧ mul64_operate .REM a b < 2 ^ 63)
    ∧ (mul32_operate .REM a b =
        if toSigned 32 b.i.as_u32 = 0 then toSigned 32 a.i.as_u32
        else if toSigned 32 a.i.as_u32 = INT32_MIN ∧ toSigned 32 b.i.as_u32 = -1 then 0
        else toSigned 32 a.i.as_u32
          - toSigned 32 b.i.as_u32 * Int.tdiv (toSigned 32 a.i.as_u32) (toSigned 32 b.i.as_u32))
    ∧ ((toSigned 32 a.i.as_u32 < 0 ∨ 0 ≤ mul32_operate .REM a b)
        ∧ (0 < toSigned 32 a.i.as_u32 ∨ mul32_operate .REM a b ≤ 0))
    ∧ (INT32_MIN ≤ mul32_operate .REM a b ∧ mul32_operate .REM a b < 2 ^ 31) := by
  have ha64 := toSigned64_range a.i.data
  have ha32 := toSigned32_range a.i.data
  have hm64 := tmod_between (toSigned 64 a.i.data) (toSigned 64 b.i.data)
  have hm32 := tmod_between (toSigned 32 a.i.data) (toSigned 32 b.i.data)
  have h64 : ∀ P : Int → Prop, P (toSigned 64 a.i.data) → P 0 →
      P (Int.tmod (toSigned 64 a.i.data) (toSigned 64 b.i.data)) → P (mul64_operate .REM a b) := by
    intro P h1 h2 h3
    simp only [mul64_operate, RegisterValue.as_i64]
    split
    · exact h1
    · split
      · exact h2
      · exact h3
  have h32 : ∀ P : Int → Prop, P (toSigned 32 a.i.data) → P 0 →
      P (Int.tmod (toSigned 32 a.i.data) (toSigned 32 b.i.data)) → P (mul32_operate .REM a b) := by
    intro P h1 h2 h3
    simp only [mul32_operate, RegisterValue.as_i32]
    split
    · exact h1
    · split
      · exact h2
      · exact h3
  refine ⟨?_, ?_, ?_, ?_, ?_, ?_⟩
  · simp only [mul64_operate, Int.tmod_def]
  · simp only [RegisterValue.as_i64]
    refine h64 (fun r => (toSigned 64 a.i.data < 0 ∨ 0 ≤ r) ∧ (0 < toSigned 64 a.i.data ∨ r ≤ 0))
      ?_ ?_ ?_ <;> omega
  · simp only [INT64_MIN]
    refine h64 (fun r => -(2 ^ 63) ≤ r ∧ r < 2 ^ 63) ?_ ?_ ?_ <;> omega
  · simp only [mul32_operate, RegisterValue.as_i32, RegisterValue.as_u32, toSigned32_mod,
      Int.tmod_def]
  · simp only [RegisterValue.as_u32, toSigned32_mod]
    refine h32 (fun r => (toSigned 32 a.i.data < 0 ∨ 0 ≤ r) ∧ (0 < toSigned 32 a.i.data ∨ r ≤ 0))
      ?_ ?_ ?_ <;> omega
  · simp only [INT32_MIN]
    refine h32 (fun r => -(2 ^ 31) ≤ r ∧ r < 2 ^ 31) ?_ ?_ ?_ <;> omega

/-- C3, counterexample: at 32-bit width the scalar that `alu_combined_operate`
returns for `DIVU` by zero has all 64 bits set, which is not `UINT32_MAX`, and
the scalar it returns for `REMU` of `0x80000000` by zero is
`0xFFFFFFFF80000000`, which is not the dividend. -/
theorem divu_remu_w_not_as_stated :
    (alu_combined_operate ⟨.ADD, .DIVU, .VADDVV⟩ .MUL true false
        (.I (RegisterValue.of_u64 1)) (.I (RegisterValue.of_u64 0)) 0 (fun _ => 0)
      = some (.I ⟨0xFFFFFFFFFFFFFFFF⟩)
    ∧ alu_combined_operate ⟨.ADD, .DIVU, .VADDVV⟩ .MUL true false
        (.I (RegisterValue.of_u64 1)) (.I (RegisterValue.of_u64 0)) 0 (fun _ => 0)
      ≠ some (.I (RegisterValue.of_u64 UINT32_MAX)))
    ∧ (alu_combined_operate ⟨.ADD, .REMU, .VADDVV⟩ .MUL true false
        (.I (RegisterValue.of_u64 0x80000000)) (.I (RegisterValue.of_u64 0)) 0 (fun _ => 0)
      = some (.I ⟨0xFFFFFFFF80000000⟩)
    ∧ alu_combined_operate ⟨.ADD, .REMU, .VADDVV⟩ .MUL true false
        (.I (RegisterValue.of_u64 0x80000000)) (.I (RegisterValue.of_u64 0)) 0 (fun _ => 0)
      ≠ some (.I (RegisterValue.of_u64 0x80000000))) := by
  have h1 : alu_combined_operate ⟨.ADD, .DIVU, .VADDVV⟩ .MUL true false
        (.I (RegisterValue.of_u64 1)) (.I (RegisterValue.of_u64 0)) 0 (fun _ => 0)
      = some (.I ⟨0xFFFFFFFFFFFFFFFF⟩) := by decide
  have h2 : alu_combined_operate ⟨.ADD, .REMU, .VADDVV⟩ .MUL true false
        (.I (RegisterValue.of_u64 0x80000000)) (.I (RegisterValue.of_u64 0)) 0 (fun _ => 0)
      = some (.I ⟨0xFFFFFFFF80000000⟩) := by decide
  refine ⟨⟨h1, ?_⟩, ⟨h2, ?_⟩⟩
  · rw [h1]; simp [RegisterValue.of_u64, UINT32_MAX]
  · rw [h2]; simp [RegisterValue.of_u64]

/-- C3, amended: unsigned division by zero is defined at both widths. At 64-bit
width `alu_combined_operate` with component `MUL` returns the scalar
`UINT64_MAX` for `DIVU` and the dividend for `REMU` when `B` is 0, and the
unsigned quotient and remainder otherwise. At 32-bit width it returns the 32-bit
result sign-extended to 64 bits: the low 32 bits of the returned scalar are
`UINT32_MAX` for `DIVU` and the low 32 bits of `A` for `REMU` when the low 32
bits of `B` are 0, and the unsigned quotient and remainder of the low 32 bits
otherwise. -/
theorem divu_remu_defined (alu_op : AluOp) (vec_op : VecOp) (modified : Bool)
    (a b : RegisterValueUnion) (vl : Nat) (uninit : vector_register_storage_t) :
    (alu_combined_operate ⟨alu_op, .DIVU, vec_op⟩ .MUL false modified a b vl uninit
        = some (.I ⟨if b.i.as_u64 = 0 then UINT64_MAX else a.i.as_u64 / b.i.as_u64⟩))
    ∧ (alu_combined_operate ⟨alu_op, .REMU, vec_op⟩ .MUL false modified a b vl uninit
        = some (.I ⟨if b.i.as_u64 = 0 then a.i.as_u64 else a.i.as_u64 % b.i.as_u64⟩))
    ∧ (alu_combined_operate ⟨alu_op, .DIVU, vec_op⟩ .MUL true modified a b vl uninit
        = some (.I (RegisterValue.of_i32 (toSigned 32
            (if b.i.as_u32 = 0 then UINT32_MAX else a.i.as_u32 / b.i.as_u32)))))
    ∧ ((alu_combined_operate ⟨alu_op, .DIVU, vec_op⟩ .MUL true modified a b vl uninit).map
          (fun r => r.i.as_u32)
        = some (if b.i.as_u32 = 0 then UINT32_MAX else a.i.as_u32 / b.i.as_u32))
    ∧ (alu_combined_operate ⟨alu_op, .REMU, vec_op⟩ .MUL true modified a b vl uninit
        = some (.I (RegisterValue.of_i32 (toSigned 32
            (if b.i.as_u32 = 0 then a.i.as_u32 else a.i.as_u32 % b.i.as_u32)))))
    ∧ ((alu_combined_operate ⟨alu_op, .REMU, vec_op⟩ .MUL true modified a b vl uninit).map
          (fun r => r.i.as_u32)
        = some (if b.i.as_u32 = 0 then a.i.as_u32 else a.i.as_u32 % b.i.as_u32)) := by
  have ha64 : a.i.data % 2 ^ 64 < 2 ^ 64 := Nat.mod_lt _ (by norm_num)
  have ha32 : a.i.data % 2 ^ 32 < 2 ^ 32 := Nat.mod_lt _ (by norm_num)
  have hd64 := Nat.div_le_self (a.i.data % 2 ^ 64) (b.i.data % 2 ^ 64)
  have hd32 := Nat.div_le_self (a.i.data % 2 ^ 32) (b.i.data % 2 ^ 32)
  have hm64 := Nat.mod_le (a.i.data % 2 ^ 64) (b.i.data % 2 ^ 64)
  have hm32 := Nat.mod_le (a.i.data % 2 ^ 32) (b.i.data % 2 ^ 32)
  have low : ∀ x : Nat, x < 2 ^ 32 →
      (RegisterValueUnion.I (RegisterValue.of_i32 (toSigned 32 x))).i.as_u32 = x := by
    intro x hx
    simp only [RegisterValueUnion.i, RegisterValue.as_u32, RegisterValue.of_i32]
    unfold ofSigned toSigned
    split <;> omega
  have hq64 : (if b.i.as_u64 = 0 then UINT64_MAX else a.i.as_u64 / b.i.as_u64) < 2 ^ 64 := by
    simp only [RegisterValue.as_u64, UINT64_MAX]
    split <;> omega
  have hr64 : (if b.i.as_u64 = 0 then a.i.as_u64 else a.i.as_u64 % b.i.as_u64) < 2 ^ 64 := by
    simp only [RegisterValue.as_u64]
    split <;> omega
  have hq32 : (if b.i.as_u32 = 0 then UINT32_MAX else a.i.as_u32 / b.i.as_u32) < 2 ^ 32 := by
    simp only [RegisterValue.as_u32, UINT32_MAX]
    split <;> omega
  have hr32 : (if b.i.as_u32 = 0 then a.i.as_u32 else a.i.as_u32 % b.i.as_u32) < 2 ^ 32 := by
    simp only [RegisterValue.as_u32]
    split <;> omega
  refine ⟨?_, ?_, rfl, ?_, rfl, ?_⟩
  · simp only [alu_combined_operate, mul64_operate, RegisterValue.of_i64, ofSigned64_toSigned,
      Bool.false_eq_true, if_false, Nat.mod_eq_of_lt hq64]
  · simp only [alu_combined_operate, mul64_operate, RegisterValue.of_i64, ofSigned64_toSigned,
      Bool.false_eq_true, if_false, Nat.mod_eq_of_lt hr64]
  · exact congrArg some (low _ hq32)
  · exact congrArg some (low _ hr32)

/-- The value that `ofSigned` stores is the signed value modulo `2 ^ 64`. -/
theorem ofSigned64_cast (x : Int) : ((ofSigned 64 x : Nat) : Int) = x % 2 ^ 64 := by
  unfold ofSigned
  omega

/-- The value that `ofSigned` stores is the signed value modulo `2 ^ 32`. -/
theorem ofSigned32_cast (x : Int) : ((ofSigned 32 x : Nat) : Int) = x % 2 ^ 32 := by
  unfold ofSigned
  omega

/-- A product of two bounded integers is bounded by the product of the bounds. -/
theorem natAbs_mul_le (x y : Int) (A B : Nat) (hx : x.natAbs ≤ A) (hy : y.natAbs ≤ B) :
    (x * y).natAbs ≤ A * B := by
  rw [Int.natAbs_mul]
  exact Nat.mul_le_mul hx hy

/-- Bits 63..32 of the 64-bit pattern of `p`, read as a signed 32-bit value, are
`p / 2 ^ 32` when `p` fits 64 bits. -/
theorem high_half_signed (p : Int) (N : Nat) (hN : (N : Int) = p % 2 ^ 64)
    (h1 : -(2 ^ 63) ≤ p) (h2 : p < 2 ^ 63) : toSigned 32 (N >>> 32) = p / 2 ^ 32 := by
  rw [Nat.shiftRight_eq_div_pow]
  unfold toSigned
  split <;> omega

/-- C4: at 32-bit width `MULH`, `MULHSU` and `MULHU` return the high 32 bits
(bits 63..32) of the exact integer product of the low 32 bits of `a` and `b`,
read as signed x signed, signed x unsigned and unsigned x unsigned: the 32-bit
pattern of the result is bits 63..32 of the product, the signed results are
exactly `product / 2 ^ 32` rounded down, and `MULHU(0xFFFFFFFF, 0xFFFFFFFF)`
has the pattern `0xFFFFFFFE`. -/
theorem mulh32_high_half (a b : RegisterValueUnion) :
    (ofSigned 32 (mul32_operate .MULH a b)
        = ((a.i.as_i32 * b.i.as_i32) % 2 ^ 64 / 2 ^ 32).toNat
      ∧ mul32_operate .MULH a b = (a.i.as_i32 * b.i.as_i32) / 2 ^ 32)
    ∧ (ofSigned 32 (mul32_operate .MULHSU a b)
        = ((a.i.as_i32 * (b.i.as_u32 : Int)) % 2 ^ 64 / 2 ^ 32).toNat
      ∧ mul32_operate .MULHSU a b = (a.i.as_i32 * (b.i.as_u32 : Int)) / 2 ^ 32)
    ∧ (ofSigned 32 (mul32_operate .MULHU a b)
        = (a.i.as_u32 * b.i.as_u32) % 2 ^ 64 / 2 ^ 32
      ∧ ofSigned 32 (mul32_operate .MULHU a b) = a.i.as_u32 * b.i.as_u32 / 2 ^ 32)
    ∧ ofSigned 32 (mul32_operate .MULHU (.I (RegisterValue.of_u64 0xFFFFFFFF))
        (.I (RegisterValue.of_u64 0xFFFFFFFF))) = 0xFFFFFFFE := by
  have hx := toSigned32_range a.i.data
  have hy := toSigned32_range b.i.data
  have hu : b.i.data % 2 ^ 32 < 2 ^ 32 := Nat.mod_lt _ (by norm_num)
  have hua : a.i.data % 2 ^ 32 < 2 ^ 32 := Nat.mod_lt _ (by norm_num)
  -- signed x signed
  have b1 := natAbs_mul_le (toSigned 32 a.i.data) (toSigned 32 b.i.data) (2 ^ 31) (2 ^ 31)
    (by omega) (by omega)
  have e1 : mul32_operate .MULH a b = (a.i.as_i32 * b.i.as_i32) / 2 ^ 32 := by
    simp only [mul32_operate, RegisterValue.as_i32]
    apply high_half_signed
    · push_cast
      rw [ofSigned64_cast, ofSigned64_cast]
      exact (Int.mul_emod _ _ _).symm
    · omega
    · omega
  -- signed x unsigned
  have b2 := natAbs_mul_le (toSigned 32 a.i.data) ((b.i.data % 2 ^ 32 : Nat) : Int) (2 ^ 31)
    (2 ^ 32 - 1) (by omega) (by omega)
  have e2 : mul32_operate .MULHSU a b = (a.i.as_i32 * (b.i.as_u32 : Int)) / 2 ^ 32 := by
    simp only [mul32_operate, RegisterValue.as_i32, RegisterValue.as_u32]
    apply high_half_signed
    · push_cast
      rw [ofSigned64_cast]
      exact Int.ModEq.mul_right _ (Int.mod_modEq _ _)
    · omega
    · omega
  -- unsigned x unsigned
  have b3 : a.i.data % 2 ^ 32 * (b.i.data % 2 ^ 32) ≤ (2 ^ 32 - 1) * (2 ^ 32 - 1) :=
    Nat.mul_le_mul (by omega) (by omega)
  have e3 : ofSigned 32 (mul32_operate .MULHU a b) = a.i.as_u32 * b.i.as_u32 / 2 ^ 32 := by
    simp only [mul32_operate, RegisterValue.as_u32, ofSigned32_toSigned,
      Nat.shiftRight_eq_div_pow]
    omega
  refine ⟨⟨?_, e1⟩, ⟨?_, e2⟩, ⟨?_, e3⟩, by decide⟩
  · rw [e1]
    simp only [RegisterValue.as_i32, ofSigned]
    omega
  · rw [e2]
    simp only [RegisterValue.as_i32, RegisterValue.as_u32, ofSigned]
    omega
  · rw [e3]
    simp only [RegisterValue.as_u32]
    omega

/-- C5: `ADD` is wraparound addition and the modifier turns it into
subtraction. The 64-bit pattern of `alu64_operate(ADD, false, a, b)` is
`(a + b) mod 2 ^ 64` and that of `alu64_operate(ADD, true, a, b)` is
`(a - b) mod 2 ^ 64`, for the unsigned and for the signed reading of the
operands (so also for `b = INT64_MIN`); `alu32_operate` does the same modulo
`2 ^ 32` on the low 32 bits. At 32-bit width `ADD(5, 3)` is 8 without the
modifier and 2 with it. -/
theorem add_wraps_and_subtracts (a b : RegisterValueUnion) :
    (ofSigned 64 (alu64_operate .ADD false a b) = (a.i.as_u64 + b.i.as_u64) % 2 ^ 64
      ∧ ofSigned 64 (alu64_operate .ADD true a b)
          = ofSigned 64 ((a.i.as_u64 : Int) - (b.i.as_u64 : Int))
      ∧ ofSigned 64 (alu64_operate .ADD true a b) = ofSigned 64 (a.i.as_i64 - b.i.as_i64))
    ∧ (ofSigned 32 (alu32_operate .ADD false a b) = (a.i.as_u32 + b.i.as_u32) % 2 ^ 32
      ∧ ofSigned 32 (alu32_operate .ADD true a b)
          = ofSigned 32 ((a.i.as_u32 : Int) - (b.i.as_u32 : Int))
      ∧ ofSigned 32 (alu32_operate .ADD true a b) = ofSigned 32 (a.i.as_i32 - b.i.as_i32))
    ∧ (alu32_operate .ADD false (.I (RegisterValue.of_u64 5)) (.I (RegisterValue.of_u64 3)) = 8
      ∧ alu32_operate .ADD true (.I (RegisterValue.of_u64 5)) (.I (RegisterValue.of_u64 3)) = 2)
    ∧ alu64_operate .ADD true (.I (RegisterValue.of_u64 0)) (.I (RegisterValue.of_i64 INT64_MIN))
        = INT64_MIN := by
  refine ⟨⟨?_, ?_, ?_⟩, ⟨?_, ?_, ?_⟩, ⟨by decide, by decide⟩, by decide⟩
  · simp only [alu64_operate, RegisterValue.as_u64, ofSigned64_toSigned, Bool.false_eq_true,
      if_false]
    omega
  · simp only [alu64_operate, RegisterValue.as_u64, ofSigned64_toSigned, if_true]
    unfold ofSigned
    omega
  · simp only [alu64_operate, RegisterValue.as_u64, RegisterValue.as_i64, ofSigned64_toSigned,
      if_true]
    unfold ofSigned toSigned
    split <;> split <;> omega
  · simp only [alu32_operate, RegisterValue.as_u32, ofSigned32_toSigned, Bool.false_eq_true,
      if_false]
    omega
  · simp only [alu32_operate, RegisterValue.as_u32, ofSigned32_toSigned, if_true]
    unfold ofSigned
    omega
  · simp only [alu32_operate, RegisterValue.as_u32, RegisterValue.as_i32, ofSigned32_toSigned,
      if_true]
    unfold ofSigned toSigned
    split <;> split <;> omega

/-- The member `.i` of a scalar-tagged value is the scalar. -/
theorem RegisterValueUnion.i_I (r : RegisterValue) : (RegisterValueUnion.I r).i = r := rfl

/-- The shift mask of the 32-bit operations keeps the amount modulo 32. -/
theorem and_SHIFT_MASK32 (x : Nat) : x &&& SHIFT_MASK32 = x % 32 :=
  Nat.and_pow_two_sub_one_eq_mod x 5

/-- The shift mask of the 64-bit operations keeps the amount modulo 64. -/
theorem and_SHIFT_MASK64 (x : Nat) : x &&& SHIFT_MASK64 = x % 64 :=
  Nat.and_pow_two_sub_one_eq_mod x 6

/-- C6: the `SLL` shift amount is masked. `alu32_operate(SLL, m, a, b)` equals
`alu32_operate(SLL, m, a, b mod 32)` and its 32-bit pattern is
`(low32(a) * 2 ^ (b mod 32)) mod 2 ^ 32`; `alu64_operate(SLL, m, a, b)` equals
`alu64_operate(SLL, m, a, b mod 64)` and its pattern is
`(a * 2 ^ (b mod 64)) mod 2 ^ 64`. At 32-bit width `SLL(1, 35) = SLL(1, 3) = 8`. -/
theorem sll_amount_masked (m : Bool) (a b : RegisterValueUnion) :
    (alu32_operate .SLL m a b = alu32_operate .SLL m a (.I (RegisterValue.of_u64 (b.i.data % 32)))
      ∧ ofSigned 32 (alu32_operate .SLL m a b)
          = (a.i.as_u32 * 2 ^ (b.i.data % 32)) % 2 ^ 32)
    ∧ (alu64_operate .SLL m a b = alu64_operate .SLL m a (.I (RegisterValue.of_u64 (b.i.data % 64)))
      ∧ ofSigned 64 (alu64_operate .SLL m a b)
          = (a.i.as_u64 * 2 ^ (b.i.data % 64)) % 2 ^ 64)
    ∧ (alu32_operate .SLL m (.I (RegisterValue.of_u64 1)) (.I (RegisterValue.of_u64 35)) = 8
      ∧ alu32_operate .SLL m (.I (RegisterValue.of_u64 1)) (.I (RegisterValue.of_u64 3)) = 8) := by
  have h32 : b.i.data % 2 ^ 32 % 32 = b.i.data % 32 := by omega
  have h64 : b.i.data % 2 ^ 64 % 64 = b.i.data % 64 := by omega
  have k32 : b.i.data % 32 % 2 ^ 64 % 2 ^ 32 % 32 = b.i.data % 32 := by omega
  have k64 : b.i.data % 64 % 2 ^ 64 % 2 ^ 64 % 64 = b.i.data % 64 := by omega
  refine ⟨⟨?_, ?_⟩, ⟨?_, ?_⟩, ?_⟩
  · simp only [alu32_operate, RegisterValue.as_u32, RegisterValueUnion.i_I, RegisterValue.of_u64,
      and_SHIFT_MASK32, h32, k32]
  · simp only [alu32_operate, RegisterValue.as_u32, ofSigned32_toSigned, and_SHIFT_MASK32, h32,
      Nat.shiftLeft_eq, Nat.mod_mod]
  · simp only [alu64_operate, RegisterValue.as_u64, RegisterValueUnion.i_I, RegisterValue.of_u64,
      and_SHIFT_MASK64, h64, k64]
  · simp only [alu64_operate, RegisterValue.as_u64, ofSigned64_toSigned, and_SHIFT_MASK64, h64,
      Nat.shiftLeft_eq, Nat.mod_mod]
  · cases m <;> exact ⟨by decide, by decide⟩

/-- Dividing a value of a signed range by a positive number, rounding down,
stays in the range. -/
theorem ediv_pos_in_range (m x d : Int) (h1 : -m ≤ x) (h2 : x < m) (hd : 0 < d) :
    -m ≤ x / d ∧ x / d < m := by
  constructor
  · rw [Int.le_ediv_iff_mul_le hd]
    by_cases hx : 0 ≤ x
    · have : -m * d ≤ 0 := by
        have hm : 0 ≤ m := by omega
        nlinarith
      omega
    · have : -m * d ≤ -m := by
        have hm : 0 ≤ m := by omega
        nlinarith
      nlinarith
  · rw [Int.ediv_lt_iff_lt_mul hd]
    nlinarith

/-- C7: `SR` is an arithmetic right shift with the modifier set and a logical
one with it clear, by the amount `s = b mod N`. With the modifier set the
result is `floor(signed_N(a) / 2 ^ s)`; with it clear the N-bit pattern of the
result is `floor(unsigned_N(a) / 2 ^ s)`; `a` is truncated to N bits, for
N = 32 (`alu32_operate`) and N = 64 (`alu64_operate`). -/
theorem sr_arithmetic_or_logical (a b : RegisterValueUnion) :
    (alu32_operate .SR true a b = Int.fdiv (toSigned 32 a.i.as_u32) (2 ^ (b.i.data % 32))
      ∧ ofSigned 32 (alu32_operate .SR false a b) = a.i.as_u32 / 2 ^ (b.i.data % 32))
    ∧ (alu64_operate .SR true a b = Int.fdiv (toSigned 64 a.i.as_u64) (2 ^ (b.i.data % 64))
      ∧ ofSigned 64 (alu64_operate .SR false a b) = a.i.as_u64 / 2 ^ (b.i.data % 64)) := by
  have h32 : b.i.data % 2 ^ 32 % 32 = b.i.data % 32 := by omega
  have h64 : b.i.data % 2 ^ 64 % 64 = b.i.data % 64 := by omega
  have p32 : (0 : Int) < 2 ^ (b.i.data % 32) := by positivity
  have p64 : (0 : Int) < 2 ^ (b.i.data % 64) := by positivity
  have ha32 := toSigned32_range a.i.data
  have ha64 := toSigned64_range a.i.data
  have r32 := ediv_pos_in_range (2 ^ 31) (toSigned 32 a.i.data) _ ha32.1 ha32.2 p32
  have r64 := ediv_pos_in_range (2 ^ 63) (toSigned 64 a.i.data) _ ha64.1 ha64.2 p64
  have u32 := Nat.div_le_self (a.i.data % 2 ^ 32) (2 ^ (b.i.data % 32))
  have u64 := Nat.div_le_self (a.i.data % 2 ^ 64) (2 ^ (b.i.data % 64))
  refine ⟨⟨?_, ?_⟩, ⟨?_, ?_⟩⟩
  · simp only [alu32_operate, RegisterValue.as_u32, RegisterValue.as_i32, and_SHIFT_MASK32, h32,
      if_true, Int.shiftRight_eq_div_pow, toSigned32_mod, Int.fdiv_eq_ediv _ (le_of_lt p32)]
    push_cast
    exact toSigned32_ofSigned _ r32.1 r32.2
  · simp only [alu32_operate, RegisterValue.as_u32, and_SHIFT_MASK32, h32, Bool.false_eq_true,
      if_false, ofSigned32_toSigned, Nat.shiftRight_eq_div_pow]
    exact Nat.mod_eq_of_lt (lt_of_le_of_lt u32 (Nat.mod_lt _ (by norm_num)))
  · simp only [alu64_operate, RegisterValue.as_u64, RegisterValue.as_i64, and_SHIFT_MASK64, h64,
      if_true, Int.shiftRight_eq_div_pow, toSigned64_mod, Int.fdiv_eq_ediv _ (le_of_lt p64)]
    push_cast
    exact toSigned64_ofSigned _ r64.1 r64.2
  · simp only [alu64_operate, RegisterValue.as_u64, and_SHIFT_MASK64, h64, Bool.false_eq_true,
      if_false, ofSigned64_toSigned, Nat.shiftRight_eq_div_pow]
    exact Nat.mod_eq_of_lt (lt_of_le_of_lt u64 (Nat.mod_lt _ (by norm_num)))

/-- C8: `SLT` and `SLTU` produce exactly 0 or 1. For both widths N and either
modifier, `SLT` returns 1 if `signed_N(a) < signed_N(b)` and 0 otherwise, and
`SLTU` returns 1 if `unsigned_N(a) < unsigned_N(b)` and 0 otherwise; at 32-bit
width only the low 32 bits of `a` and `b` are compared. -/
theorem slt_sltu_zero_or_one (m : Bool) (a b : RegisterValueUnion) :
    (alu64_operate .SLT m a b = (if toSigned 64 a.i.as_u64 < toSigned 64 b.i.as_u64 then 1 else 0)
      ∧ alu64_operate .SLTU m a b = (if a.i.as_u64 < b.i.as_u64 then 1 else 0))
    ∧ (alu32_operate .SLT m a b = (if toSigned 32 a.i.as_u32 < toSigned 32 b.i.as_u32 then 1 else 0)
      ∧ alu32_operate .SLTU m a b = (if a.i.as_u32 < b.i.as_u32 then 1 else 0))
    ∧ ((alu64_operate .SLT m a b = 0 ∨ alu64_operate .SLT m a b = 1)
      ∧ (alu64_operate .SLTU m a b = 0 ∨ alu64_operate .SLTU m a b = 1)
      ∧ (alu32_operate .SLT m a b = 0 ∨ alu32_operate .SLT m a b = 1)
      ∧ (alu32_operate .SLTU m a b = 0 ∨ alu32_operate .SLTU m a b = 1)) := by
  refine ⟨⟨?_, rfl⟩, ⟨?_, rfl⟩, ?_, ?_, ?_, ?_⟩
  · simp only [alu64_operate, RegisterValue.as_i64, RegisterValue.as_u64, toSigned64_mod]
  · simp only [alu32_operate, RegisterValue.as_i32, RegisterValue.as_u32, toSigned32_mod]
  · simp only [alu64_operate]; split <;> simp
  · simp only [alu64_operate]; split <;> simp
  · simp only [alu32_operate]; split <;> simp
  · simp only [alu32_operate]; split <;> simp

/-- The signed reading of a 64-bit pattern is congruent to the pattern. -/
theorem toSigned64_emod (n : Nat) : toSigned 64 n % 2 ^ 64 = ((n % 2 ^ 64 : Nat) : Int) := by
  unfold toSigned
  split <;> omega

/-- The signed reading of a 32-bit pattern is congruent to the pattern. -/
theorem toSigned32_emod (n : Nat) : toSigned 32 n % 2 ^ 32 = ((n % 2 ^ 32 : Nat) : Int) := by
  unfold toSigned
  split <;> omega

/-- C9: `MUL` returns the low half of the product, independent of signedness.
For both widths N the N-bit pattern of the result is the exact integer product
of the operands modulo `2 ^ N`, and it is the same for the unsigned and for
the signed reading of the N-bit operands. -/
theorem mul_low_half (a b : RegisterValueUnion) :
    (ofSigned 64 (mul64_operate .MUL a b) = (a.i.as_u64 * b.i.as_u64) % 2 ^ 64
      ∧ ofSigned 64 (mul64_operate .MUL a b) = ofSigned 64 (a.i.as_i64 * b.i.as_i64))
    ∧ (ofSigned 32 (mul32_operate .MUL a b) = (a.i.as_u32 * b.i.as_u32) % 2 ^ 32
      ∧ ofSigned 32 (mul32_operate .MUL a b) = ofSigned 32 (a.i.as_i32 * b.i.as_i32)) := by
  have e64 : ofSigned 64 (mul64_operate .MUL a b) = (a.i.as_u64 * b.i.as_u64) % 2 ^ 64 := by
    simp only [mul64_operate, ofSigned64_toSigned, Nat.mod_mod]
  have e32 : ofSigned 32 (mul32_operate .MUL a b) = (a.i.as_u32 * b.i.as_u32) % 2 ^ 32 := by
    simp only [mul32_operate, ofSigned32_toSigned, Nat.mod_mod]
  refine ⟨⟨e64, ?_⟩, ⟨e32, ?_⟩⟩
  · rw [e64]
    simp only [RegisterValue.as_u64, RegisterValue.as_i64, ofSigned]
    have h : (toSigned 64 a.i.data * toSigned 64 b.i.data) % 2 ^ 64
        = (((a.i.data % 2 ^ 64 * (b.i.data % 2 ^ 64) % 2 ^ 64 : Nat)) : Int) := by
      rw [Int.mul_emod, toSigned64_emod, toSigned64_emod]
      push_cast
      rfl
    omega
  · rw [e32]
    simp only [RegisterValue.as_u32, RegisterValue.as_i32, ofSigned]
    have h : (toSigned 32 a.i.data * toSigned 32 b.i.data) % 2 ^ 32
        = (((a.i.data % 2 ^ 32 * (b.i.data % 2 ^ 32) % 2 ^ 32 : Nat)) : Int) := by
      rw [Int.mul_emod, toSigned32_emod, toSigned32_emod]
      push_cast
      rfl
    omega

/-- Every value that `alu32_operate` returns is a value of `int32_t`. -/
theorem alu32_operate_range (op : AluOp) (m : Bool) (a b : RegisterValueUnion) :
    -(2 ^ 31) ≤ alu32_operate op m a b ∧ alu32_operate op m a b < 2 ^ 31 := by
  cases op <;> simp only [alu32_operate] <;>
    first
      | exact toSigned32_range _
      | (split <;> omega)
      | omega

/-- Every value that `mul32_operate` returns is a value of `int32_t`. -/
theorem mul32_operate_range (op : MulOp) (a b : RegisterValueUnion) :
    -(2 ^ 31) ≤ mul32_operate op a b ∧ mul32_operate op a b < 2 ^ 31 := by
  have ha := toSigned32_range a.i.data
  have hm := tmod_between (toSigned 32 a.i.data) (toSigned 32 b.i.data)
  cases op <;> simp only [mul32_operate, RegisterValue.as_i32, INT32_MIN]
  case DIV =>
    split
    · omega
    · split
      · omega
      · rename_i h0 hov
        exact tdiv_in_range (2 ^ 31) _ _ ha.1 ha.2 hov
  case REM =>
    split
    · omega
    · split <;> omega
  all_goals first
    | exact toSigned32_range _
    | omega

/-- Storing a value of `int32_t` through `RegisterValue(int64_t)` gives a 64-bit
pattern that is the sign-extension of its own low 32 bits. -/
theorem of_i64_sign_extended (x : Int) (h1 : -(2 ^ 31) ≤ x) (h2 : x < 2 ^ 31) :
    (RegisterValue.of_i64 x).data < 2 ^ 64
    ∧ (RegisterValue.of_i64 x).data = ofSigned 64 (RegisterValue.of_i64 x).as_i32
    ∧ (RegisterValue.of_i64 x).data / 2 ^ 32
        = (if (RegisterValue.of_i64 x).data % 2 ^ 32 < 2 ^ 31 then 0 else 2 ^ 32 - 1) := by
  simp only [RegisterValue.of_i64, RegisterValue.as_i32]
  unfold ofSigned toSigned
  refine ⟨by omega, ?_, ?_⟩
  · split <;> omega
  · split <;> omega

/-- An operand enters `alu32_operate` through its low 32 bits only. -/
theorem alu32_operate_low (op : AluOp) (m : Bool) (a b a' b' : RegisterValueUnion)
    (ha : a'.i.data % 2 ^ 32 = a.i.data % 2 ^ 32) (hb : b'.i.data % 2 ^ 32 = b.i.data % 2 ^ 32) :
    alu32_operate op m a' b' = alu32_operate op m a b := by
  have e1 : a'.i.as_u32 = a.i.as_u32 := ha
  have e2 : b'.i.as_u32 = b.i.as_u32 := hb
  have e3 : a'.i.as_i32 = a.i.as_i32 := by
    unfold RegisterValue.as_i32; rw [← toSigned32_mod, ha, toSigned32_mod]
  have e4 : b'.i.as_i32 = b.i.as_i32 := by
    unfold RegisterValue.as_i32; rw [← toSigned32_mod, hb, toSigned32_mod]
  unfold alu32_operate
  simp only [e1, e2, e3, e4]

/-- An operand enters `mul32_operate` through its low 32 bits only. -/
theorem mul32_operate_low (op : MulOp) (a b a' b' : RegisterValueUnion)
    (ha : a'.i.data % 2 ^ 32 = a.i.data % 2 ^ 32) (hb : b'.i.data % 2 ^ 32 = b.i.data % 2 ^ 32) :
    mul32_operate op a' b' = mul32_operate op a b := by
  have e1 : a'.i.as_u32 = a.i.as_u32 := ha
  have e2 : b'.i.as_u32 = b.i.as_u32 := hb
  have e3 : a'.i.as_i32 = a.i.as_i32 := by
    unfold RegisterValue.as_i32; rw [← toSigned32_mod, ha, toSigned32_mod]
  have e4 : b'.i.as_i32 = b.i.as_i32 := by
    unfold RegisterValue.as_i32; rw [← toSigned32_mod, hb, toSigned32_mod]
  unfold mul32_operate
  simp only [e1, e2, e3, e4]

/-- C10: 32-bit width handling. For every ALU operation and every MUL
operation, every modifier and all operands, `alu_combined_operate` with
`w_operation = true` returns a scalar whose 64-bit pattern is the
sign-extension of its own low 32 bits (bits 63..32 all equal bit 31), and the
result does not change when the upper 32 bits of either operand are replaced
by any other bits `ha`, `hb`. -/
theorem w_operation_sign_extends (op : AluCombinedOp) (modified : Bool)
    (a b : RegisterValueUnion) (vl : Nat) (uninit : vector_register_storage_t) (ha hb : Nat) :
    (∃ r : RegisterValue,
        alu_combined_operate op .ALU true modified a b vl uninit = some (.I r)
        ∧ r.data < 2 ^ 64
        ∧ r.data = ofSigned 64 r.as_i32
        ∧ r.data / 2 ^ 32 = (if r.data % 2 ^ 32 < 2 ^ 31 then 0 else 2 ^ 32 - 1))
    ∧ alu_combined_operate op .ALU true modified
          (.I ⟨a.i.as_u32 + 2 ^ 32 * (ha % 2 ^ 32)⟩) (.I ⟨b.i.as_u32 + 2 ^ 32 * (hb % 2 ^ 32)⟩)
          vl uninit
        = alu_combined_operate op .ALU true modified a b vl uninit
    ∧ (∃ r : RegisterValue,
        alu_combined_operate op .MUL true modified a b vl uninit = some (.I r)
        ∧ r.data < 2 ^ 64
        ∧ r.data = ofSigned 64 r.as_i32
        ∧ r.data / 2 ^ 32 = (if r.data % 2 ^ 32 < 2 ^ 31 then 0 else 2 ^ 32 - 1))
    ∧ alu_combined_operate op .MUL true modified
          (.I ⟨a.i.as_u32 + 2 ^ 32 * (ha % 2 ^ 32)⟩) (.I ⟨b.i.as_u32 + 2 ^ 32 * (hb % 2 ^ 32)⟩)
          vl uninit
        = alu_combined_operate op .MUL true modified a b vl uninit := by
  have la : (RegisterValueUnion.I ⟨a.i.as_u32 + 2 ^ 32 * (ha % 2 ^ 32)⟩).i.data % 2 ^ 32
      = a.i.data % 2 ^ 32 := by
    simp only [RegisterValueUnion.i_I, RegisterValue.as_u32]; omega
  have lb : (RegisterValueUnion.I ⟨b.i.as_u32 + 2 ^ 32 * (hb % 2 ^ 32)⟩).i.data % 2 ^ 32
      = b.i.data % 2 ^ 32 := by
    simp only [RegisterValueUnion.i_I, RegisterValue.as_u32]; omega
  have ra := alu32_operate_range op.alu_op modified a b
  have rm := mul32_operate_range op.mul_op a b
  refine ⟨⟨_, ?_, of_i64_sign_extended _ ra.1 ra.2⟩, ?_, ⟨_, ?_, of_i64_sign_extended _ rm.1 rm.2⟩,
    ?_⟩
  · simp only [alu_combined_operate, if_true]
  · simp only [alu_combined_operate, if_true, alu32_operate_low op.alu_op modified a b _ _ la lb]
  · simp only [alu_combined_operate, if_true]
  · simp only [alu_combined_operate, if_true, mul32_operate_low op.mul_op a b _ _ la lb]

/-! ## Facts about the loops -/

/-- A loop runs its body only below the bound. -/
theorem forLoop_congr {σ : Type} (body body' : Nat → σ → Option σ) (n : Nat) (s : σ)
    (h : ∀ i, i < n → ∀ r, body i r = body' i r) : forLoop body n s = forLoop body' n s := by
  induction n with
  | zero => rfl
  | succ k ih =>
    simp only [forLoop]
    rw [ih (fun i hi r => h i (Nat.lt_succ_of_lt hi) r)]
    cases forLoop body' k s with
    | none => rfl
    | some r => exact h k (Nat.lt_succ_self k) r

/-- A loop that stores `f i` into lane `i` for `i < n` fills the first `n` lanes
and leaves the others as they were. -/
theorem forLoop_store (f : Nat → Nat) (n : Nat) (r0 : vector_register_storage_t) (hn : n ≤ 32) :
    forLoop (fun i (result : vector_register_storage_t) => result.store i (f i)) n r0
      = some (fun j => if j.val < n then f j.val % 2 ^ 32 else r0 j) := by
  induction n with
  | zero => simp [forLoop]
  | succ k ih =>
    have hk : k < 32 := hn
    rw [forLoop, ih (Nat.le_of_lt hk)]
    simp only [Option.some_bind, vector_register_storage_t.store, hk, dif_pos]
    congr 1
    funext j
    by_cases hj : j = ⟨k, hk⟩
    · subst hj; simp
    · have hne : j.val ≠ k := fun h => hj (Fin.ext h)
      rw [Function.update_noteq hj]
      by_cases h1 : j.val < k
      · simp [h1, Nat.lt_succ_of_lt h1]
      · have h2 : ¬ j.val < k + 1 := by omega
        simp [h1, h2]

/-- The lane read of a vector agrees with `lane_or_zero` below 32. -/
theorem lane_eq (v : VectorRegisterValue) (i : Nat) (hi : i < 32) :
    v.lane i = some (lane_or_zero v.data i) := by
  simp [VectorRegisterValue.lane, lane_or_zero, hi]

/-- The lane-wise loop of `vec32_operate` over two vectors. -/
theorem forLoop_lanewise (g : Nat → Nat → Nat) (x y : VectorRegisterValue) (vl : Nat)
    (uninit : vector_register_storage_t) (h : vl ≤ 32) :
    forLoop (fun i (result : vector_register_storage_t) => do
        let av ← (RegisterValueUnion.V x).v
        let bv ← (RegisterValueUnion.V y).v
        let p ← av.lane i
        let q ← bv.lane i
        result.store i (g p q)) vl uninit
      = some (fun j =>
          if j.val < vl then g (lane_or_zero x.data j.val) (lane_or_zero y.data j.val) % 2 ^ 32
          else uninit j) := by
  rw [← forLoop_store (fun i => g (lane_or_zero x.data i) (lane_or_zero y.data i)) vl uninit h]
  apply forLoop_congr
  intro i hi r
  have hi32 : i < 32 := Nat.lt_of_lt_of_le hi h
  simp [RegisterValueUnion.v, lane_eq _ i hi32]

/-- The lane-wise loop of `vec32_operate` over a vector and a broadcast scalar. -/
theorem forLoop_broadcast (x : VectorRegisterValue) (c : Nat) (vl : Nat)
    (uninit : vector_register_storage_t) (h : vl ≤ 32) :
    forLoop (fun i (result : vector_register_storage_t) => do
        let av ← (RegisterValueUnion.V x).v
        let p ← av.lane i
        result.store i ((p + c) % 2 ^ 32)) vl uninit
      = some (fun j =>
          if j.val < vl then (lane_or_zero x.data j.val + c) % 2 ^ 32 % 2 ^ 32 else uninit j) := by
  rw [← forLoop_store (fun i => (lane_or_zero x.data i + c) % 2 ^ 32) vl uninit h]
  apply forLoop_congr
  intro i hi r
  have hi32 : i < 32 := Nat.lt_of_lt_of_le hi h
  simp [RegisterValueUnion.v, lane_eq _ i hi32]

/-- C11: the lane-wise vector operations compute each active lane modulo
`2 ^ 32` and return a vector-tagged value. For every `vl <= 32`, vectors `A`,
`B` and scalar `s`, lane `i < vl` of the result is `(A[i] + B[i]) mod 2 ^ 32`
for `VADDVV`, `(A[i] * B[i]) mod 2 ^ 32` for `VMULVV` and
`(A[i] + as_u32(s)) mod 2 ^ 32` for `VADDVI`; the lanes from `vl` on keep the
content the result array started with. -/
theorem vec_lanewise (A B : VectorRegisterValue) (s : RegisterValueUnion) (vl : Nat)
    (uninit : vector_register_storage_t) (h : vl ≤ 32) :
    vec32_operate .VADDVV (.V A) (.V B) vl uninit
        = some (.V ⟨fun j =>
            if j.val < vl then (lane_or_zero A.data j.val + lane_or_zero B.data j.val) % 2 ^ 32
            else uninit j⟩)
    ∧ vec32_operate .VMULVV (.V A) (.V B) vl uninit
        = some (.V ⟨fun j =>
            if j.val < vl then (lane_or_zero A.data j.val * lane_or_zero B.data j.val) % 2 ^ 32
            else uninit j⟩)
    ∧ vec32_operate .VADDVI (.V A) s vl uninit
        = some (.V ⟨fun j =>
            if j.val < vl then (lane_or_zero A.data j.val + s.i.as_u32) % 2 ^ 32
            else uninit j⟩) := by
  refine ⟨?_, ?_, ?_⟩
  · simp only [vec32_operate]
    rw [forLoop_lanewise (fun p q => (p + q) % 2 ^ 32) A B vl uninit h]
    simp only [Option.map_some', Nat.mod_mod]
  · simp only [vec32_operate]
    rw [forLoop_lanewise (fun p q => (p * q) % 2 ^ 32) A B vl uninit h]
    simp only [Option.map_some', Nat.mod_mod]
  · simp only [vec32_operate]
    rw [forLoop_broadcast A s.i.as_u32 vl uninit h]
    simp only [Option.map_some', Nat.mod_mod]

/-- C11, witness: `VADDVV` with `vl = 4` on `A = [1, 2, 3, 4, ...]` and
`B = [10, 20, 30, 40, ...]` yields `[11, 22, 33, 44]` in lanes 0..3. -/
theorem vec_lanewise_witness :
    (4 ≤ 32)
    ∧ ((vec32_operate .VADDVV (.V ⟨fun i => i.val + 1⟩) (.V ⟨fun i => 10 * (i.val + 1)⟩) 4
          (fun _ => 0)).bind (fun r => r.v)).map
        (fun v => [v.lane 0, v.lane 1, v.lane 2, v.lane 3])
      = some [some 11, some 22, some 33, some 44] := by
  refine ⟨by decide, ?_⟩
  rw [(vec_lanewise ⟨fun i => i.val + 1⟩ ⟨fun i => 10 * (i.val + 1)⟩
    (.I (RegisterValue.of_u64 0)) 4 (fun _ => 0) (by decide)).1]
  decide

/-- The reduction loop of `vec32_operate`: the accumulator plus the first `vl`
lanes, modulo `2 ^ 32`. -/
theorem forLoop_redsum (y : VectorRegisterValue) (acc : Nat) (vl : Nat) (h : vl ≤ 32) :
    forLoop (fun i (result : Nat) => do
        let bv ← (RegisterValueUnion.V y).v
        let q ← bv.lane i
        pure ((result + q) % 2 ^ 32)) vl (acc % 2 ^ 32)
      = some ((acc + Finset.sum (Finset.range vl) (fun i => lane_or_zero y.data i)) % 2 ^ 32) := by
  induction vl with
  | zero => simp [forLoop]
  | succ k ih =>
    have hk : k < 32 := h
    rw [forLoop, ih (Nat.le_of_lt hk)]
    simp only [Option.some_bind, RegisterValueUnion.v, lane_eq _ k hk, Finset.sum_range_succ]
    show some _ = some _
    congr 1
    omega

/-- C12: `VREDSUM` is a scalar reduction. For every `vl <= 32`, accumulator
operand `a` and vector operand `B`, `vec32_operate` returns the scalar-tagged
value `(as_u32(a) + B[0] + ... + B[vl-1]) mod 2 ^ 32`, zero-extended to 64
bits; lanes from `vl` on do not enter (replacing them by the lanes of any
`other` array gives the same result), and with `vl = 0` the result is the low 32
bits of the accumulator whatever the second operand is. With `vl = 3`,
accumulator 100 and lanes `[1, 2, 3, ...]` the result is 106. -/
theorem vredsum_reduces (a b : RegisterValueUnion) (B : VectorRegisterValue)
    (other : vector_register_storage_t) (vl : Nat) (uninit : vector_register_storage_t)
    (h : vl ≤ 32) :
    vec32_operate .VREDSUM a (.V B) vl uninit
        = some (.I ⟨(a.i.as_u32 + Finset.sum (Finset.range vl) (fun i => lane_or_zero B.data i))
            % 2 ^ 32⟩)
    ∧ vec32_operate .VREDSUM a (.V ⟨fun j => if j.val < vl then B.data j else other j⟩) vl uninit
        = vec32_operate .VREDSUM a (.V B) vl uninit
    ∧ vec32_operate .VREDSUM a b 0 uninit = some (.I ⟨a.i.as_u32⟩)
    ∧ vec32_operate .VREDSUM (.I (RegisterValue.of_u64 100)) (.V ⟨fun i => i.val + 1⟩) 3 uninit
        = some (.I ⟨106⟩) := by
  have key : ∀ (y : VectorRegisterValue), vec32_operate .VREDSUM a (.V y) vl uninit
      = some (.I ⟨(a.i.as_u32 + Finset.sum (Finset.range vl) (fun i => lane_or_zero y.data i))
          % 2 ^ 32⟩) := by
    intro y
    have e := forLoop_redsum y a.i.data vl h
    simp only [vec32_operate, RegisterValue.as_u32]
    rw [e]
    simp only [Option.map_some', RegisterValue.of_u32, Nat.mod_mod, Nat.mod_add_mod]
  refine ⟨key B, ?_, ?_, ?_⟩
  · have e : Finset.sum (Finset.range vl)
          (fun i => lane_or_zero (fun j : Fin 32 => if j.val < vl then B.data j else other j) i)
        = Finset.sum (Finset.range vl) (fun i => lane_or_zero B.data i) := by
      apply Finset.sum_congr rfl
      intro i hi
      have hi' : i < vl := Finset.mem_range.mp hi
      simp [lane_or_zero, hi']
    rw [key, key, e]
  · simp [vec32_operate, forLoop, RegisterValue.of_u32, RegisterValue.as_u32]
  · simp [vec32_operate, forLoop, RegisterValue.of_u32, RegisterValue.of_u64,
      RegisterValue.as_u32, RegisterValueUnion.v, RegisterValueUnion.i, VectorRegisterValue.lane]

/-- C12, witness: the reduction at `vl = 3`, accumulator 100 and lanes
`[1, 2, 3, ...]`. -/
theorem vredsum_reduces_witness :
    (3 ≤ 32)
    ∧ vec32_operate .VREDSUM (.I (RegisterValue.of_u64 100)) (.V ⟨fun i => i.val + 1⟩) 3
        (fun _ => 0) = some (.I ⟨106⟩) :=
  ⟨by decide,
   (vredsum_reduces (.I (RegisterValue.of_u64 100)) (.I (RegisterValue.of_u64 0))
      ⟨fun i => i.val + 1⟩ (fun _ => 0) 3 (fun _ => 0) (by decide)).2.2.2⟩

/-- C13, counterexample: an unrecognised component or operation code is turned
into zero. With component code 9 `alu_combined_operate` returns the scalar
zero, the very value it returns for the legitimate `ADD(0, 0)`; with operation
code 9 each of the five family functions returns zero as well. -/
theorem unknown_operation_returns_zero :
    alu_combined_operate ⟨.ADD, .MUL, .VADDVV⟩ (.invalid 9) false false
        (.I (RegisterValue.of_u64 5)) (.I (RegisterValue.of_u64 3)) 0 (fun _ => 0)
      = some (.I (RegisterValue.of_u64 0))
    ∧ alu_combined_operate ⟨.ADD, .MUL, .VADDVV⟩ .ALU false false
        (.I (RegisterValue.of_u64 0)) (.I (RegisterValue.of_u64 0)) 0 (fun _ => 0)
      = some (.I (RegisterValue.of_u64 0))
    ∧ alu64_operate (.invalid 9) false (.I (RegisterValue.of_u64 5)) (.I (RegisterValue.of_u64 3))
      = 0
    ∧ alu32_operate (.invalid 9) false (.I (RegisterValue.of_u64 5)) (.I (RegisterValue.of_u64 3))
      = 0
    ∧ mul64_operate (.invalid 9) (.I (RegisterValue.of_u64 5)) (.I (RegisterValue.of_u64 3)) = 0
    ∧ mul32_operate (.invalid 9) (.I (RegisterValue.of_u64 5)) (.I (RegisterValue.of_u64 3)) = 0
    ∧ vec32_operate (.invalid 9) (.I (RegisterValue.of_u64 5)) (.I (RegisterValue.of_u64 3)) 0
        (fun _ => 0)
      = some (.I (RegisterValue.of_u64 0)) := by
  refine ⟨rfl, by decide, rfl, rfl, rfl, rfl, rfl⟩

/-- C13, amended: an unrecognised operation is turned into zero. For every
component value outside `ALU, MUL, VEC, PASS`, `alu_combined_operate` returns
the scalar zero; for every operation code outside the defined operations of its
family, `alu64_operate`, `alu32_operate`, `mul64_operate` and `mul32_operate`
return 0 and `vec32_operate` returns the scalar zero, and `alu_combined_operate`
hands that zero on as the scalar zero at either width. The value is the one a
legitimate operation returns for a zero result, here `ADD(0, 0)`. -/
theorem unknown_operation_is_zero (raw : Nat) (op : AluCombinedOp) (w_operation modified : Bool)
    (a b : RegisterValueUnion) (vl : Nat) (uninit : vector_register_storage_t) :
    alu_combined_operate op (.invalid raw) w_operation modified a b vl uninit
      = some (.I (RegisterValue.of_u64 0))
    ∧ alu64_operate (.invalid raw) modified a b = 0
    ∧ alu32_operate (.invalid raw) modified a b = 0
    ∧ mul64_operate (.invalid raw) a b = 0
    ∧ mul32_operate (.invalid raw) a b = 0
    ∧ vec32_operate (.invalid raw) a b vl uninit = some (.I (RegisterValue.of_u64 0))
    ∧ alu_combined_operate ⟨.invalid raw, op.mul_op, op.vec_op⟩ .ALU w_operation modified a b vl
        uninit = some (.I (RegisterValue.of_u64 0))
    ∧ alu_combined_operate ⟨op.alu_op, .invalid raw, op.vec_op⟩ .MUL w_operation modified a b vl
        uninit = some (.I (RegisterValue.of_u64 0))
    ∧ alu_combined_operate ⟨op.alu_op, op.mul_op, .invalid raw⟩ .VEC w_operation modified a b vl
        uninit = some (.I (RegisterValue.of_u64 0))
    ∧ alu_combined_operate ⟨.ADD, op.mul_op, op.vec_op⟩ .ALU w_operation modified
        (.I (RegisterValue.of_u64 0)) (.I (RegisterValue.of_u64 0)) vl uninit
      = some (.I (RegisterValue.of_u64 0)) := by
  refine ⟨rfl, rfl, rfl, rfl, rfl, rfl, ?_, ?_, rfl, ?_⟩
  · cases w_operation <;> rfl
  · cases w_operation <;> rfl
  · cases w_operation <;> cases modified <;> simp only [alu_combined_operate] <;> decide

/-! ## Facts about bytes and byte order -/

/-- The byte list of an `n`-byte value has `n` bytes. -/
theorem bytes_le_length (n value : Nat) : (bytes_le n value).length = n := by
  induction n generalizing value with
  | zero => rfl
  | succ k ih => simp [bytes_le, ih]

/-- Every element of the byte list is a byte. -/
theorem bytes_le_lt (n value : Nat) : ∀ b ∈ bytes_le n value, b < 256 := by
  induction n generalizing value with
  | zero => simp [bytes_le]
  | succ k ih =>
    intro b hb
    simp only [bytes_le, List.mem_cons] at hb
    rcases hb with hb | hb
    · omega
    · exact ih _ b hb

/-- Reading back the bytes of a value gives the value modulo `256 ^ n`. -/
theorem of_bytes_le_bytes_le (n value : Nat) : of_bytes_le (bytes_le n value) = value % 256 ^ n := by
  induction n generalizing value with
  | zero => simp [bytes_le, of_bytes_le, Nat.mod_one]
  | succ k ih =>
    simp only [bytes_le, of_bytes_le, ih, Nat.mod_mod]
    rw [pow_succ, Nat.mul_comm (256 ^ k) 256, Nat.mod_mul]

/-- The bytes of the value of a byte list are the list. -/
theorem bytes_le_of_bytes_le (bs : List Nat) (h : ∀ b ∈ bs, b < 256) :
    bytes_le bs.length (of_bytes_le bs) = bs := by
  induction bs with
  | nil => rfl
  | cons b t ih =>
    have hb : b < 256 := h b (List.mem_cons_self _ _)
    have ht : ∀ x ∈ t, x < 256 := fun x hx => h x (List.mem_cons_of_mem _ hx)
    simp only [List.length_cons, bytes_le, of_bytes_le]
    have e1 : (b % 256 + 256 * of_bytes_le t) % 256 = b := by omega
    have e2 : (b % 256 + 256 * of_bytes_le t) / 256 = of_bytes_le t := by omega
    rw [e1, e2, ih ht]

/-- The value of `n` bytes is below `256 ^ n`. -/
theorem of_bytes_le_lt (bs : List Nat) : of_bytes_le bs < 256 ^ bs.length := by
  induction bs with
  | nil => simp [of_bytes_le]
  | cons b t ih =>
    simp only [of_bytes_le, List.length_cons, pow_succ]
    omega

/-- The object representation has `n` bytes. -/
theorem to_bytes_length (host : Endian) (n value : Nat) : (to_bytes host n value).length = n := by
  cases host <;> simp [to_bytes, bytes_le_length]

/-- The object representation consists of bytes. -/
theorem to_bytes_lt (host : Endian) (n value : Nat) : ∀ b ∈ to_bytes host n value, b < 256 := by
  cases host
  · exact bytes_le_lt n value
  · intro b hb
    exact bytes_le_lt n value b (List.mem_reverse.mp hb)

/-- A host reads back from its own representation the value modulo `256 ^ n`. -/
theorem of_bytes_to_bytes (host : Endian) (n value : Nat) :
    of_bytes host (to_bytes host n value) = value % 256 ^ n := by
  cases host <;> simp [of_bytes, to_bytes, of_bytes_le_bytes_le]

/-- What `write_generic` hands to the backend is the value in the byte order of
the simulated machine, whatever the host is. -/
theorem to_bytes_byteswap_if (host sim : Endian) (n value : Nat) :
    to_bytes host n (byteswap_if n value (sim != host)) = to_bytes sim n value := by
  have hrev : bytes_le n (of_bytes_le (bytes_le n value).reverse) = (bytes_le n value).reverse := by
    have h := bytes_le_of_bytes_le (bytes_le n value).reverse
      (fun b hb => bytes_le_lt n value b (List.mem_reverse.mp hb))
    rwa [List.length_reverse, bytes_le_length] at h
  cases host <;> cases sim <;>
    simp [to_bytes, byteswap_if, byteswap, hrev]

/-- What `read_generic` returns is the bytes read in the byte order of the
simulated machine, whatever the host is. -/
theorem byteswap_if_of_bytes (host sim : Endian) (bs : List Nat) (h : ∀ b ∈ bs, b < 256) :
    byteswap_if bs.length (of_bytes host bs) (sim != host) = of_bytes sim bs := by
  have h1 := bytes_le_of_bytes_le bs h
  have h2 : bytes_le bs.length (of_bytes_le bs.reverse) = bs.reverse := by
    have := bytes_le_of_bytes_le bs.reverse (fun b hb => h b (List.mem_reverse.mp hb))
    rwa [List.length_reverse] at this
  cases host <;> cases sim <;>
    simp [of_bytes, byteswap_if, byteswap, h1, h2]

/-! ## Facts about the byte store -/

/-- A load returns as many bytes as asked. -/
theorem load_bytes_length (cells : Nat → Nat) (address size : Nat) :
    (load_bytes cells address size).length = size := by
  induction size generalizing address with
  | zero => rfl
  | succ k ih => simp [load_bytes, ih]

/-- A load returns bytes. -/
theorem load_bytes_lt (cells : Nat → Nat) (address size : Nat) :
    ∀ b ∈ load_bytes cells address size, b < 256 := by
  induction size generalizing address with
  | zero => simp [load_bytes]
  | succ k ih =>
    intro b hb
    simp only [load_bytes, List.mem_cons] at hb
    rcases hb with hb | hb
    · omega
    · exact ih _ b hb

/-- A load depends only on the cells it covers. -/
theorem load_bytes_congr (cells cells' : Nat → Nat) (address size : Nat)
    (h : ∀ k, k < size → cells ((address + k) % 2 ^ 64) = cells' ((address + k) % 2 ^ 64)) :
    load_bytes cells address size = load_bytes cells' address size := by
  induction size generalizing address with
  | zero => rfl
  | succ k ih =>
    simp only [load_bytes]
    have h0 := h 0 (Nat.succ_pos k)
    rw [Nat.add_zero] at h0
    rw [h0, ih (address + 1) (fun j hj => by
      have := h (j + 1) (Nat.succ_lt_succ hj)
      rwa [show address + (j + 1) = address + 1 + j by omega] at this)]

/-- A store leaves the cells it does not cover as they were. -/
theorem store_bytes_frame (cells : Nat → Nat) (address : Nat) (buffer : List Nat) (c : Nat)
    (h : ∀ k, k < buffer.length → (address + k) % 2 ^ 64 ≠ c) :
    store_bytes cells address buffer c = cells c := by
  induction buffer generalizing cells address with
  | nil => rfl
  | cons b t ih =>
    simp only [store_bytes]
    rw [ih _ (address + 1) (fun k hk => by
      have := h (k + 1) (by simp only [List.length_cons]; omega)
      rwa [show address + (k + 1) = address + 1 + k by omega] at this)]
    have h0 := h 0 (by simp)
    rw [Nat.add_zero] at h0
    exact Function.update_noteq (Ne.symm h0) _ _

/-- A store puts byte `k` of the buffer into the `k`-th cell from the address. -/
theorem store_bytes_hit (cells : Nat → Nat) (address : Nat) (buffer : List Nat)
    (hlen : buffer.length ≤ 2 ^ 64) (k : Nat) (hk : k < buffer.length) :
    store_bytes cells address buffer ((address + k) % 2 ^ 64) = buffer.getD k 0 % 256 := by
  induction buffer generalizing cells address k with
  | nil => simp at hk
  | cons b t ih =>
    simp only [List.length_cons] at hlen hk
    simp only [store_bytes]
    cases k with
    | zero =>
      rw [Nat.add_zero, store_bytes_frame _ _ _ _ (fun j hj => by omega)]
      simp
    | succ j =>
      have := ih (Function.update cells (address % 2 ^ 64) (b % 256)) (address + 1)
        (by omega) j (by omega)
      rw [show address + (j + 1) = address + 1 + j by omega, this]
      simp

/-- A load right after a store at the same address returns the stored bytes. -/
theorem load_store_same (cells : Nat → Nat) (address : Nat) (buffer : List Nat)
    (hlen : buffer.length ≤ 2 ^ 64) :
    load_bytes (store_bytes cells address buffer) address buffer.length
      = buffer.map (· % 256) := by
  induction buffer generalizing cells address with
  | nil => rfl
  | cons b t ih =>
    simp only [List.length_cons] at hlen
    simp only [List.length_cons, load_bytes, List.map_cons]
    have h0 := store_bytes_hit cells address (b :: t) (by simp only [List.length_cons]; omega) 0
      (by simp)
    rw [Nat.add_zero] at h0
    rw [h0]
    simp only [store_bytes, List.getD_cons_zero, Nat.mod_mod]
    rw [ih _ (address + 1) (by omega)]

/-- Taking the byte of a byte changes nothing. -/
theorem map_mod_256 (bs : List Nat) (h : ∀ b ∈ bs, b < 256) : bs.map (· % 256) = bs := by
  induction bs with
  | nil => rfl
  | cons b t ih =>
    have hb : b < 256 := h b (List.mem_cons_self _ _)
    simp only [List.map_cons, Nat.mod_eq_of_lt hb,
      ih (fun x hx => h x (List.mem_cons_of_mem _ hx))]

/-! ## Facts about the generic transfers -/

/-- The template `write_generic` stores the value in the byte order of the
simulated machine. -/
theorem write_generic_eq (host : Endian) (n : Nat) (fm : FrontendMemory) (address : Address)
    (value : Nat) :
    FrontendMemory.write_generic host n fm address value
      = fm.write address (to_bytes fm.simulated_machine_endian n value) := by
  simp only [FrontendMemory.write_generic, to_bytes_byteswap_if]

/-- The template `read_generic` reads the value in the byte order of the
simulated machine and changes no cell. -/
theorem read_generic_eq (host : Endian) (n : Nat) (fm : FrontendMemory) (address : Address) :
    FrontendMemory.read_generic host n fm address
      = (of_bytes fm.simulated_machine_endian (load_bytes fm.cells address n),
         { fm with calls := fm.calls ++ [⟨false, address, n⟩] }) := by
  have h := byteswap_if_of_bytes host fm.simulated_machine_endian (load_bytes fm.cells address n)
    (load_bytes_lt _ _ _)
  rw [load_bytes_length] at h
  simp only [FrontendMemory.read_generic, FrontendMemory.read, h]

/-- A value of `n` bytes read by `read_generic` is below `256 ^ n`. -/
theorem read_generic_lt (host : Endian) (n : Nat) (fm : FrontendMemory) (address : Address) :
    (FrontendMemory.read_generic host n fm address).1 < 256 ^ n := by
  rw [read_generic_eq]
  have h1 := of_bytes_le_lt (load_bytes fm.cells address n)
  have h2 := of_bytes_le_lt (load_bytes fm.cells address n).reverse
  rw [load_bytes_length] at h1
  rw [List.length_reverse, load_bytes_length] at h2
  cases hs : fm.simulated_machine_endian <;> simp only [of_bytes] <;> assumption

/-- Reading right after a write at the same address gives the low `n` bytes of
the written value. -/
theorem read_after_write (host : Endian) (n : Nat) (fm : FrontendMemory) (address : Address)
    (value : Nat) (hn : n ≤ 2 ^ 64) :
    (FrontendMemory.read_generic host n
        (FrontendMemory.write_generic host n fm address value).2 address).1
      = value % 256 ^ n := by
  rw [read_generic_eq, write_generic_eq]
  simp only [FrontendMemory.write]
  have hl := to_bytes_length fm.simulated_machine_endian n value
  have h := load_store_same fm.cells address (to_bytes fm.simulated_machine_endian n value)
    (by rw [hl]; exact hn)
  rw [hl, map_mod_256 _ (to_bytes_lt _ _ _)] at h
  rw [h, of_bytes_to_bytes]

/-- C18: host-endianness independence. With the byte order of the host as a
parameter, for every simulated byte order, every width `n` in bytes, every
value and every pair of addresses, `write_generic` does the same on any host as
on a host whose byte order matches the simulated one, the cells hold the value
in the byte order of the simulated machine, `read_generic` does the same on any
host, and so a read at `a2` after a write at `a1` returns the same value on
any host. Big-endian simulation, a 4-byte write of `0x12345678` at offset 0
into zeroed memory and a 4-byte read at offset 2 give `0x56780000` on a
little-endian and on a big-endian host. -/
theorem host_endianness_independent (host : Endian) (fm : FrontendMemory) (n : Nat)
    (a1 a2 : Address) (value : Nat) :
    FrontendMemory.write_generic host n fm a1 value
        = FrontendMemory.write_generic fm.simulated_machine_endian n fm a1 value
    ∧ (FrontendMemory.write_generic host n fm a1 value).2.cells
        = store_bytes fm.cells a1 (to_bytes fm.simulated_machine_endian n value)
    ∧ FrontendMemory.read_generic host n fm a2
        = FrontendMemory.read_generic fm.simulated_machine_endian n fm a2
    ∧ FrontendMemory.read_generic host n (FrontendMemory.write_generic host n fm a1 value).2 a2
        = FrontendMemory.read_generic fm.simulated_machine_endian n
            (FrontendMemory.write_generic fm.simulated_machine_endian n fm a1 value).2 a2
    ∧ (FrontendMemory.read_generic .LITTLE 4
          (FrontendMemory.write_generic .LITTLE 4 (FrontendMemory.mk_with .BIG (fun _ => 0)) 0
            0x12345678).2 2).1 = 0x56780000
    ∧ (FrontendMemory.read_generic .BIG 4
          (FrontendMemory.write_generic .BIG 4 (FrontendMemory.mk_with .BIG (fun _ => 0)) 0
            0x12345678).2 2).1 = 0x56780000 := by
  refine ⟨?_, ?_, ?_, ?_, by decide, by decide⟩
  · rw [write_generic_eq, write_generic_eq]
  · rw [write_generic_eq]; rfl
  · rw [read_generic_eq, read_generic_eq]
  · rw [read_generic_eq, read_generic_eq, write_generic_eq, write_generic_eq]

/-! ## Facts about the vector transfers -/

/-- Offsets below `2 ^ 10` from one address, taken modulo `2 ^ 64`, differ when
the offsets differ. -/
theorem wrapped_offsets_ne (address p q : Nat) (hp : p < 1024) (hq : q < 1024) (hpq : p ≠ q) :
    (address + p) % 2 ^ 64 ≠ (address + q) % 2 ^ 64 := by
  omega

/-- The four cells of one lane are none of the four cells of another lane. -/
theorem lane_cells_disjoint (address i j k k' : Nat) (hi : i < 256) (hj : j < 256)
    (hij : i ≠ j) (hk : k < 4) (hk' : k' < 4) :
    (Address.add address (i * 4) + k) % 2 ^ 64 ≠ (Address.add address (j * 4) + k') % 2 ^ 64 := by
  have h := wrapped_offsets_ne address (i * 4 + k) (j * 4 + k') (by omega) (by omega) (by omega)
  have e1 : (Address.add address (i * 4) + k) % 2 ^ 64 = (address + (i * 4 + k)) % 2 ^ 64 := by
    show ((address + i * 4) % 2 ^ 64 + k) % 2 ^ 64 = _
    omega
  have e2 : (Address.add address (j * 4) + k') % 2 ^ 64 = (address + (j * 4 + k')) % 2 ^ 64 := by
    show ((address + j * 4) % 2 ^ 64 + k') % 2 ^ 64 = _
    omega
  rw [e1, e2]
  exact h

/-- The lane read of a lane array agrees with `lane_or_zero` below 32. -/
theorem get_eq (value : vector_register_storage_t) (i : Nat) (hi : i < 32) :
    value.get i = some (lane_or_zero value i) := by
  simp [vector_register_storage_t.get, lane_or_zero, hi]

/-- The state after the loop of `write_vec_u32` has run `n` lanes. -/
theorem write_vec_loop (host : Endian) (fm : FrontendMemory) (address : Address)
    (value : vector_register_storage_t) (n : Nat) (hn : n ≤ 32) :
    ∃ flag w, FrontendMemory.write_vec_u32 host fm address value n = some (flag, w)
      ∧ w.simulated_machine_endian = fm.simulated_machine_endian
      ∧ w.calls = fm.calls
          ++ (List.range n).map (fun i => (⟨true, Address.add address (i * 4), 4⟩ : BackendAccess))
      ∧ (∀ i, i < n →
          of_bytes fm.simulated_machine_endian
            (load_bytes w.cells (Address.add address (i * 4)) 4) = lane_or_zero value i)
      ∧ (∀ c, (∀ i, i < n → ∀ k, k < 4 → (Address.add address (i * 4) + k) % 2 ^ 64 ≠ c) →
          w.cells c = fm.cells c) := by
  induction n with
  | zero =>
    refine ⟨true, fm, rfl, rfl, by simp, ?_, ?_⟩
    · intro i hi; omega
    · intro c _; rfl
  | succ n ih =>
    have hn32 : n < 32 := hn
    obtain ⟨flag, w, hw, hsim, hcalls, hlanes, hframe⟩ := ih (Nat.le_of_lt hn32)
    unfold FrontendMemory.write_vec_u32 at hw ⊢
    rw [forLoop, hw]
    simp only [Option.some_bind, get_eq value n hn32, Option.map_some', write_generic_eq]
    refine ⟨_, _, rfl, hsim, ?_, ?_, ?_⟩
    · simp only [FrontendMemory.write, hcalls, to_bytes_length, List.range_succ, List.map_append,
        List.map_cons, List.map_nil, List.append_assoc]
    · intro i hi
      simp only [FrontendMemory.write]
      by_cases hin : i = n
      · subst hin
        have hl := to_bytes_length w.simulated_machine_endian 4 (lane_or_zero value i)
        have h := load_store_same w.cells (Address.add address (i * 4))
          (to_bytes w.simulated_machine_endian 4 (lane_or_zero value i)) (by rw [hl]; norm_num)
        rw [hl, map_mod_256 _ (to_bytes_lt _ _ _)] at h
        rw [h, hsim, of_bytes_to_bytes]
        have : lane_or_zero value i < 2 ^ 32 := by
          simp only [lane_or_zero, hn32, dif_pos]
          exact Nat.mod_lt _ (by norm_num)
        omega
      · have hlt : i < n := by omega
        rw [← hlanes i hlt]
        congr 1
        apply load_bytes_congr
        intro k hk
        apply store_bytes_frame
        intro k' hk'
        rw [to_bytes_length] at hk'
        have := lane_cells_disjoint address n i k' k (by omega) (by omega) (by omega) hk' hk
        unfold Address.add at this ⊢
        omega
    · intro c hc
      simp only [FrontendMemory.write]
      rw [store_bytes_frame _ _ _ _ (fun k hk => by
        rw [to_bytes_length] at hk
        exact hc n (Nat.lt_succ_self n) k hk)]
      exact hframe c (fun i hi k hk => hc i (Nat.lt_succ_of_lt hi) k hk)

/-- The result of the loop of `read_vec_u32` after `n` lanes: the lanes read
from the cells, the cells unchanged. -/
theorem read_vec_loop (host : Endian) (w : FrontendMemory) (address : Address) (n : Nat)
    (uninit : vector_register_storage_t) (hn : n ≤ 32) :
    ∃ r, FrontendMemory.read_vec_u32 host w address n uninit
        = some (fun j =>
            if j.val < n then
              of_bytes w.simulated_machine_endian
                (load_bytes w.cells (Address.add address (j.val * 4)) 4) % 2 ^ 32
            else uninit j, r)
      ∧ r.cells = w.cells
      ∧ r.simulated_machine_endian = w.simulated_machine_endian
      ∧ r.calls = w.calls
          ++ (List.range n).map (fun i => (⟨false, Address.add address (i * 4), 4⟩ : BackendAccess))
      := by
  induction n with
  | zero => exact ⟨w, by simp [FrontendMemory.read_vec_u32, forLoop], rfl, rfl, by simp⟩
  | succ n ih =>
    have hn32 : n < 32 := hn
    obtain ⟨r, hr, hcells, hsim, hcalls⟩ := ih (Nat.le_of_lt hn32)
    unfold FrontendMemory.read_vec_u32 at hr ⊢
    rw [forLoop, hr]
    simp only [Option.some_bind, read_generic_eq, vector_register_storage_t.store, hn32, dif_pos,
      Option.map_some', hcells, hsim]
    refine ⟨⟨w.simulated_machine_endian, w.cells,
      r.calls ++ [⟨false, Address.add address (n * 4), 4⟩]⟩, ?_, rfl, rfl, ?_⟩
    · congr 2
      funext j
      by_cases hj : j = ⟨n, hn32⟩
      · subst hj; simp
      · have hne : j.val ≠ n := fun h => hj (Fin.ext h)
        rw [Function.update_noteq hj]
        by_cases h1 : j.val < n
        · simp [h1, Nat.lt_succ_of_lt h1]
        · have h2 : ¬ j.val < n + 1 := by omega
          simp [h1, h2]
    · simp only [hcalls, List.range_succ, List.map_append, List.map_cons, List.map_nil,
        List.append_assoc]

/-- C14: scalar memory round trip over the byte store. For every host and
simulated byte order, every address and every value `v`, `write_ctl` followed
by `read_ctl` with the same scalar code and address returns the scalar whose
64-bit pattern is the low `N` bits of `v`, sign-extended for the codes `AC_I8`,
`AC_I16`, `AC_I32`, `AC_I64` and zero-extended for `AC_U8`, `AC_U16`, `AC_U32`,
`AC_U64`. -/
theorem scalar_round_trip (host : Endian) (fm : FrontendMemory) (address : Address)
    (v : RegisterValueUnion) (vl : Nat) (uninit : vector_register_storage_t) :
    write_then_read host fm .AC_U32 address v vl uninit
        = some (.returns (.I ⟨v.i.data % 2 ^ 32⟩))
    ∧ write_then_read host fm .AC_I32 address v vl uninit
        = some (.returns (.I ⟨ofSigned 64 (toSigned 32 (v.i.data % 2 ^ 32))⟩))
    ∧ write_then_read host fm .AC_U8 address v vl uninit
        = some (.returns (.I ⟨v.i.data % 2 ^ 8⟩))
    ∧ write_then_read host fm .AC_I8 address v vl uninit
        = some (.returns (.I ⟨ofSigned 64 (toSigned 8 (v.i.data % 2 ^ 8))⟩))
    ∧ write_then_read host fm .AC_U16 address v vl uninit
        = some (.returns (.I ⟨v.i.data % 2 ^ 16⟩))
    ∧ write_then_read host fm .AC_I16 address v vl uninit
        = some (.returns (.I ⟨ofSigned 64 (toSigned 16 (v.i.data % 2 ^ 16))⟩))
    ∧ write_then_read host fm .AC_U64 address v vl uninit
        = some (.returns (.I ⟨v.i.data % 2 ^ 64⟩))
    ∧ write_then_read host fm .AC_I64 address v vl uninit
        = some (.returns (.I ⟨ofSigned 64 (toSigned 64 (v.i.data % 2 ^ 64))⟩)) := by
  have r1 := read_after_write host 1 fm address v.i.as_u8 (by norm_num)
  have r2 := read_after_write host 2 fm address v.i.as_u16 (by norm_num)
  have r4 := read_after_write host 4 fm address v.i.as_u32 (by norm_num)
  have r8 := read_after_write host 8 fm address v.i.as_u64 (by norm_num)
  have e1 : v.i.as_u8 % 256 ^ 1 = v.i.data % 2 ^ 8 := by
    simp only [RegisterValue.as_u8]; omega
  have e2 : v.i.as_u16 % 256 ^ 2 = v.i.data % 2 ^ 16 := by
    simp only [RegisterValue.as_u16]; omega
  have e4 : v.i.as_u32 % 256 ^ 4 = v.i.data % 2 ^ 32 := by
    simp only [RegisterValue.as_u32]; omega
  have e8 : v.i.as_u64 % 256 ^ 8 = v.i.data % 2 ^ 64 := by
    simp only [RegisterValue.as_u64]; omega
  rw [e1] at r1
  rw [e2] at r2
  rw [e4] at r4
  rw [e8] at r8
  have c8 : ofSigned 64 ((v.i.data % 2 ^ 8 : Nat) : Int) = v.i.data % 2 ^ 8 := by
    unfold ofSigned; omega
  have c16 : ofSigned 64 ((v.i.data % 2 ^ 16 : Nat) : Int) = v.i.data % 2 ^ 16 := by
    unfold ofSigned; omega
  refine ⟨?_, ?_, ?_, ?_, ?_, ?_, ?_, ?_⟩ <;>
    simp only [write_then_read, FrontendMemory.write_ctl, FrontendMemory.read_ctl,
      FrontendMemory.write_u8, FrontendMemory.write_u16, FrontendMemory.write_u32,
      FrontendMemory.write_u64, FrontendMemory.read_u8, FrontendMemory.read_u16,
      FrontendMemory.read_u32, FrontendMemory.read_u64, Option.some_bind, Option.map_some',
      r1, r2, r4, r8, RegisterValue.of_u32, RegisterValue.of_u64, RegisterValue.of_i8,
      RegisterValue.of_i16, RegisterValue.of_i32, RegisterValue.of_i64, Nat.mod_mod, c8, c16]

/-- C15: vector memory round trip over the byte store. For every host and
simulated byte order, base address, `vl <= 32` and vector `V`, `write_ctl`
with `AC_V32` followed by `read_ctl` with `AC_V32` at the same address and
`vl` returns a vector-tagged value whose lanes `0..vl-1` are `V[0..vl-1]` in
the same order (the lanes from `vl` on are what the array read into started
with). Lane `i` is transferred as one backend call of 4 bytes at
`address + 4 * i`, in ascending order of `i`, and the cells of two different
lanes are different. -/
theorem vector_round_trip (host : Endian) (fm : FrontendMemory) (address : Address)
    (V : VectorRegisterValue) (vl : Nat) (uninit : vector_register_storage_t) (h : vl ≤ 32) :
    ∃ w r,
      fm.write_ctl host .AC_V32 address (.V V) vl = some (.returns (), w)
      ∧ w.read_ctl host .AC_V32 address vl uninit
          = some (.returns (.V ⟨fun j => if j.val < vl then V.data j % 2 ^ 32 else uninit j⟩), r)
      ∧ w.calls = fm.calls
          ++ (List.range vl).map
              (fun i => (⟨true, Address.add address (i * 4), 4⟩ : BackendAccess))
      ∧ r.calls = w.calls
          ++ (List.range vl).map
              (fun i => (⟨false, Address.add address (i * 4), 4⟩ : BackendAccess))
      ∧ (∀ i j k k', i < vl → j < vl → i ≠ j → k < 4 → k' < 4 →
          (Address.add address (i * 4) + k) % 2 ^ 64
            ≠ (Address.add address (j * 4) + k') % 2 ^ 64) := by
  obtain ⟨flag, w, hw, hsim, hcalls, hlanes, _⟩ := write_vec_loop host fm address V.data vl h
  obtain ⟨r, hr, _, _, hrcalls⟩ := read_vec_loop host w address vl uninit h
  refine ⟨w, r, ?_, ?_, hcalls, hrcalls, ?_⟩
  · simp only [FrontendMemory.write_ctl, RegisterValueUnion.v, Option.some_bind, hw,
      Option.map_some']
  · simp only [FrontendMemory.read_ctl, hr, Option.map_some']
    congr 5
    funext j
    by_cases hj : j.val < vl
    · simp only [hj, if_true, hsim, hlanes j.val hj]
      simp [lane_or_zero]
    · simp only [hj, if_false]
  · intro i j k k' hi hj hij hk hk'
    exact lane_cells_disjoint address i j k k' (by omega) (by omega) hij hk hk'

/-- C15, witness: three lanes written at the misaligned address 6 of a
big-endian simulation on a little-endian host. -/
theorem vector_round_trip_witness :
    (3 ≤ 32)
    ∧ ∃ w r,
      (FrontendMemory.mk_with .BIG (fun _ => 0)).write_ctl .LITTLE .AC_V32 6
          (.V ⟨fun i => i.val + 1⟩) 3 = some (.returns (), w)
      ∧ w.read_ctl .LITTLE .AC_V32 6 3 (fun _ => 0)
          = some (.returns (.V ⟨fun j =>
              if j.val < 3 then (fun i : Fin 32 => i.val + 1) j % 2 ^ 32
              else (fun _ => 0) j⟩), r)
      ∧ w.calls = (FrontendMemory.mk_with .BIG (fun _ => 0)).calls
          ++ (List.range 3).map
              (fun i => (⟨true, Address.add 6 (i * 4), 4⟩ : BackendAccess))
      ∧ r.calls = w.calls
          ++ (List.range 3).map
              (fun i => (⟨false, Address.add 6 (i * 4), 4⟩ : BackendAccess))
      ∧ (∀ i j k k', i < 3 → j < 3 → i ≠ j → k < 4 → k' < 4 →
          (Address.add 6 (i * 4) + k) % 2 ^ 64 ≠ (Address.add 6 (j * 4) + k') % 2 ^ 64) :=
  ⟨by decide,
   vector_round_trip .LITTLE (FrontendMemory.mk_with .BIG (fun _ => 0)) 6 ⟨fun i => i.val + 1⟩ 3
     (fun _ => 0) (by decide)⟩

/-! ## The result of a write -/

/-- Byte `k` of a load is the content of the `k`-th cell from the address. -/
theorem load_bytes_getD (cells : Nat → Nat) (address size k : Nat) (hk : k < size) :
    (load_bytes cells address size).getD k 0 = cells ((address + k) % 2 ^ 64) % 256 := by
  induction size generalizing address k with
  | zero => omega
  | succ n ih =>
    cases k with
    | zero => simp [load_bytes]
    | succ j =>
      simp only [load_bytes, List.getD_cons_succ]
      rw [ih (address + 1) j (by omega), show address + 1 + j = address + (j + 1) by omega]

/-- The scalar writes report a change exactly when a cell changed: over cells
that hold bytes, `write_generic` returns `true` if and only if the cells after
the call differ from the cells before it. -/
theorem write_generic_changed_iff (host : Endian) (n : Nat) (fm : FrontendMemory)
    (address : Address) (value : Nat) (hn : n ≤ 2 ^ 64) (hwf : ∀ c, fm.cells c < 256) :
    (FrontendMemory.write_generic host n fm address value).1 = true
      ↔ (FrontendMemory.write_generic host n fm address value).2.cells ≠ fm.cells := by
  rw [write_generic_eq]
  simp only [FrontendMemory.write, decide_eq_true_eq]
  have hl := to_bytes_length fm.simulated_machine_endian n value
  have hsame := load_store_same fm.cells address (to_bytes fm.simulated_machine_endian n value)
    (by rw [hl]; exact hn)
  constructor
  · intro hne heq
    rw [heq] at hsame
    exact hne hsame
  · intro hne hload
    apply hne
    funext c
    by_cases hc : ∃ k, k < n ∧ (address + k) % 2 ^ 64 = c
    · obtain ⟨k, hk, rfl⟩ := hc
      rw [store_bytes_hit _ _ _ (by rw [hl]; exact hn) k (by rw [hl]; exact hk)]
      have h1 := load_bytes_getD fm.cells address n k hk
      rw [hl] at hload
      rw [hload] at h1
      rw [List.getD_eq_getElem?_getD, List.getElem?_map] at h1
      rw [List.getD_eq_getElem?_getD]
      have hk' : k < (to_bytes fm.simulated_machine_endian n value).length := by rw [hl]; exact hk
      rw [List.getElem?_eq_getElem hk'] at h1 ⊢
      simp only [Option.map_some', Option.getD_some] at h1 ⊢
      rw [h1, Nat.mod_eq_of_lt (hwf _)]
    · apply store_bytes_frame
      intro k hk heq
      exact hc ⟨k, by rwa [hl] at hk, heq⟩

/-- C19, the code at the failing inputs: over zeroed memory `write_vec_u32` with
`vl = 0` returns `true` although it makes no backend call and changes no cell,
and with `vl = 2` and lanes `[1, 0]` it returns `false` although cell 0 changed
from 0 to 1; the scalar `write_u32` of the same value 1 returns `true`. -/
theorem write_vec_flag_is_not_changed :
    ((FrontendMemory.mk_with .LITTLE (fun _ => 0)).write_vec_u32 .LITTLE 0
        (fun i => if i.val = 0 then 1 else 0) 0).map (fun r => (r.1, r.2.calls))
      = some (true, [])
    ∧ ((FrontendMemory.mk_with .LITTLE (fun _ => 0)).write_vec_u32 .LITTLE 0
        (fun i => if i.val = 0 then 1 else 0) 2).map (fun r => (r.1, r.2.cells 0))
      = some (false, 1)
    ∧ (FrontendMemory.mk_with .LITTLE (fun _ => 0)).cells 0 = 0
    ∧ ((FrontendMemory.mk_with .LITTLE (fun _ => 0)).write_u32 .LITTLE 0 1).1 = true := by
  refine ⟨by decide, by decide, rfl, by decide⟩

/-- C16: `read_ctl` extends by the signedness of the code. For every address
and memory content, `AC_NONE` returns the zero scalar without a backend call
(the frontend state, its record of calls included, is unchanged); `AC_I8`,
`AC_I16`, `AC_I32`, `AC_I64` return the `N`-bit value read, sign-extended to
64 bits; `AC_U8`, `AC_U16`, `AC_U32`, `AC_U64` return the `N`-bit value read,
zero-extended. A byte `0xFF` read with `AC_U8` gives `0xFF`, and with `AC_I8`
the all-ones pattern. -/
theorem read_ctl_extends (host : Endian) (fm : FrontendMemory) (address : Address) (vl : Nat)
    (uninit : vector_register_storage_t) :
    fm.read_ctl host .AC_NONE address vl uninit = some (.returns (.I ⟨0⟩), fm)
    ∧ (fm.read_ctl host .AC_I8 address vl uninit
          = some (.returns (.I ⟨ofSigned 64 (toSigned 8 (fm.read_u8 host address).1)⟩),
              (fm.read_u8 host address).2)
      ∧ fm.read_ctl host .AC_I16 address vl uninit
          = some (.returns (.I ⟨ofSigned 64 (toSigned 16 (fm.read_u16 host address).1)⟩),
              (fm.read_u16 host address).2)
      ∧ fm.read_ctl host .AC_I32 address vl uninit
          = some (.returns (.I ⟨ofSigned 64 (toSigned 32 (fm.read_u32 host address).1)⟩),
              (fm.read_u32 host address).2)
      ∧ fm.read_ctl host .AC_I64 address vl uninit
          = some (.returns (.I ⟨ofSigned 64 (toSigned 64 (fm.read_u64 host address).1)⟩),
              (fm.read_u64 host address).2))
    ∧ (fm.read_ctl host .AC_U8 address vl uninit
          = some (.returns (.I ⟨(fm.read_u8 host address).1⟩), (fm.read_u8 host address).2)
      ∧ fm.read_ctl host .AC_U16 address vl uninit
          = some (.returns (.I ⟨(fm.read_u16 host address).1⟩), (fm.read_u16 host address).2)
      ∧ fm.read_ctl host .AC_U32 address vl uninit
          = some (.returns (.I ⟨(fm.read_u32 host address).1⟩), (fm.read_u32 host address).2)
      ∧ fm.read_ctl host .AC_U64 address vl uninit
          = some (.returns (.I ⟨(fm.read_u64 host address).1⟩), (fm.read_u64 host address).2))
    ∧ ((fm.read_u8 host address).1 < 2 ^ 8 ∧ (fm.read_u16 host address).1 < 2 ^ 16
      ∧ (fm.read_u32 host address).1 < 2 ^ 32 ∧ (fm.read_u64 host address).1 < 2 ^ 64)
    ∧ (((FrontendMemory.mk_with .LITTLE (fun _ => 0xFF)).read_ctl host .AC_U8 0 0 uninit).map
          (fun r => r.1) = some (.returns (.I ⟨0xFF⟩))
      ∧ ((FrontendMemory.mk_with .LITTLE (fun _ => 0xFF)).read_ctl host .AC_I8 0 0 uninit).map
          (fun r => r.1) = some (.returns (.I ⟨0xFFFFFFFFFFFFFFFF⟩))) := by
  have b1 : (fm.read_u8 host address).1 < 2 ^ 8 := by
    have := read_generic_lt host 1 fm address
    simpa [FrontendMemory.read_u8] using this
  have b2 : (fm.read_u16 host address).1 < 2 ^ 16 := by
    have := read_generic_lt host 2 fm address
    simpa [FrontendMemory.read_u16] using this
  have b4 : (fm.read_u32 host address).1 < 2 ^ 32 := by
    have := read_generic_lt host 4 fm address
    simpa [FrontendMemory.read_u32] using this
  have b8 : (fm.read_u64 host address).1 < 2 ^ 64 := by
    have := read_generic_lt host 8 fm address
    simpa [FrontendMemory.read_u64] using this
  have c1 : ofSigned 64 ((fm.read_u8 host address).1 : Int) = (fm.read_u8 host address).1 := by
    unfold ofSigned; omega
  have c2 : ofSigned 64 ((fm.read_u16 host address).1 : Int) = (fm.read_u16 host address).1 := by
    unfold ofSigned; omega
  refine ⟨?_, ⟨rfl, rfl, rfl, rfl⟩, ⟨?_, ?_, ?_, ?_⟩, ⟨b1, b2, b4, b8⟩, ?_, ?_⟩
  · simp [FrontendMemory.read_ctl, RegisterValue.of_i32, ofSigned]
  · simp only [FrontendMemory.read_ctl, RegisterValue.of_i32, c1]
  · simp only [FrontendMemory.read_ctl, RegisterValue.of_i32, c2]
  · simp only [FrontendMemory.read_ctl, RegisterValue.of_u32, Nat.mod_eq_of_lt b4]
  · simp only [FrontendMemory.read_ctl, RegisterValue.of_u64, Nat.mod_eq_of_lt b8]
  · cases host <;> rfl
  · cases host <;> rfl

/-- C17: an access-control code outside the ten defined ones makes `read_ctl`
and `write_ctl` end with the `UnknownMemoryControl` exception, for every
address, value and `vl`, with the frontend state (cells and record of backend
calls) unchanged; and a code that is one of the ten never makes either function
end with an exception. -/
theorem unknown_access_control (host : Endian) (fm : FrontendMemory) (ctl : AccessControl)
    (raw : Nat) (address : Address) (value : RegisterValueUnion) (vl : Nat)
    (uninit : vector_register_storage_t) :
    (fm.read_ctl host (.invalid raw) address vl uninit
        = some (.throws .UnknownMemoryControl, fm)
      ∧ fm.write_ctl host (.invalid raw) address value vl
        = some (.throws .UnknownMemoryControl, fm))
    ∧ ((∃ r, ctl = .invalid r)
      ∨ ((∀ e s, fm.read_ctl host ctl address vl uninit ≠ some (.throws e, s))
        ∧ (∀ e s, fm.write_ctl host ctl address value vl ≠ some (.throws e, s)))) := by
  refine ⟨⟨rfl, rfl⟩, ?_⟩
  cases ctl
  case invalid r => exact Or.inl ⟨r, rfl⟩
  all_goals
    right
    constructor
    · intro e s h
      simp only [FrontendMemory.read_ctl] at h
      first
        | (injection h with h; injection h with h1 _; cases h1)
        | (cases hr : FrontendMemory.read_vec_u32 host fm address vl uninit <;>
            rw [hr] at h <;> simp at h)
    · intro e s h
      simp only [FrontendMemory.write_ctl] at h
      first
        | (injection h with h; injection h with h1 _; cases h1)
        | (cases value <;> simp only [RegisterValueUnion.v, Option.bind] at h <;>
            first
              | cases h
              | (rename_i vec
                 cases hw : FrontendMemory.write_vec_u32 host fm address vec.data vl <;>
                   rw [hw] at h <;> simp at h))

/-- C20: construction of a `RegisterValue` and read-back. For every signed 8-,
16- or 32-bit integer `x`, `RegisterValue(x)` holds the sign-extension of `x`
to 64 bits, the matching signed accessor returns `x`, and the unsigned
accessor of the same width returns `x mod 2 ^ N`; for every unsigned 32- or
64-bit integer `u`, `RegisterValue(u)` holds the zero-extension of `u`. -/
theorem register_value_read_back (x8 x16 x32 : Int) (u32 u64 : Nat)
    (h8 : -(2 ^ 7) ≤ x8 ∧ x8 < 2 ^ 7) (h16 : -(2 ^ 15) ≤ x16 ∧ x16 < 2 ^ 15)
    (h32 : -(2 ^ 31) ≤ x32 ∧ x32 < 2 ^ 31) (hu32 : u32 < 2 ^ 32) (hu64 : u64 < 2 ^ 64) :
    ((RegisterValue.of_i8 x8).data = (if 0 ≤ x8 then x8.toNat else 2 ^ 64 - (-x8).toNat)
      ∧ (RegisterValue.of_i8 x8).as_i8 = x8
      ∧ ((RegisterValue.of_i8 x8).as_u8 : Int) = x8 % 2 ^ 8)
    ∧ ((RegisterValue.of_i16 x16).data = (if 0 ≤ x16 then x16.toNat else 2 ^ 64 - (-x16).toNat)
      ∧ (RegisterValue.of_i16 x16).as_i16 = x16
      ∧ ((RegisterValue.of_i16 x16).as_u16 : Int) = x16 % 2 ^ 16)
    ∧ ((RegisterValue.of_i32 x32).data = (if 0 ≤ x32 then x32.toNat else 2 ^ 64 - (-x32).toNat)
      ∧ (RegisterValue.of_i32 x32).as_i32 = x32
      ∧ ((RegisterValue.of_i32 x32).as_u32 : Int) = x32 % 2 ^ 32)
    ∧ (RegisterValue.of_u32 u32).data = u32
    ∧ (RegisterValue.of_u64 u64).data = u64 := by
  refine ⟨⟨?_, ?_, ?_⟩, ⟨?_, ?_, ?_⟩, ⟨?_, ?_, ?_⟩, ?_, ?_⟩
  · simp only [RegisterValue.of_i8, ofSigned]; split <;> omega
  · simp only [RegisterValue.of_i8, RegisterValue.as_i8, ofSigned, toSigned]; split <;> omega
  · simp only [RegisterValue.of_i8, RegisterValue.as_u8, ofSigned]; omega
  · simp only [RegisterValue.of_i16, ofSigned]; split <;> omega
  · simp only [RegisterValue.of_i16, RegisterValue.as_i16, ofSigned, toSigned]; split <;> omega
  · simp only [RegisterValue.of_i16, RegisterValue.as_u16, ofSigned]; omega
  · simp only [RegisterValue.of_i32, ofSigned]; split <;> omega
  · simp only [RegisterValue.of_i32, RegisterValue.as_i32, ofSigned, toSigned]; split <;> omega
  · simp only [RegisterValue.of_i32, RegisterValue.as_u32, ofSigned]; omega
  · simp only [RegisterValue.of_u32]; omega
  · simp only [RegisterValue.of_u64]; omega

/-- C20, witness: the statement at `x = -1` for the three signed widths and at
the largest unsigned values. -/
theorem register_value_read_back_witness :
    ((RegisterValue.of_i8 (-1)).data
        = (if (0 : Int) ≤ -1 then (-1 : Int).toNat else 2 ^ 64 - (-(-1 : Int)).toNat)
      ∧ (RegisterValue.of_i8 (-1)).as_i8 = -1
      ∧ ((RegisterValue.of_i8 (-1)).as_u8 : Int) = -1 % 2 ^ 8)
    ∧ ((RegisterValue.of_i16 (-1)).data
        = (if (0 : Int) ≤ -1 then (-1 : Int).toNat else 2 ^ 64 - (-(-1 : Int)).toNat)
      ∧ (RegisterValue.of_i16 (-1)).as_i16 = -1
      ∧ ((RegisterValue.of_i16 (-1)).as_u16 : Int) = -1 % 2 ^ 16)
    ∧ ((RegisterValue.of_i32 (-1)).data
        = (if (0 : Int) ≤ -1 then (-1 : Int).toNat else 2 ^ 64 - (-(-1 : Int)).toNat)
      ∧ (RegisterValue.of_i32 (-1)).as_i32 = -1
      ∧ ((RegisterValue.of_i32 (-1)).as_u32 : Int) = -1 % 2 ^ 32)
    ∧ (RegisterValue.of_u32 (2 ^ 32 - 1)).data = 2 ^ 32 - 1
    ∧ (RegisterValue.of_u64 (2 ^ 64 - 1)).data = 2 ^ 64 - 1 :=
  register_value_read_back (-1) (-1) (-1) (2 ^ 32 - 1) (2 ^ 64 - 1)
    (by decide) (by decide) (by decide) (by decide) (by decide)

/-! ## Register identifiers -/

/-- The constructor from `uint8_t` succeeds exactly below `REGISTER_COUNT` and
otherwise raises the sanity exception. -/
theorem RegisterId.of_u8_validated (n : Nat) :
    RegisterId.of_u8 n = if n < 32 then .returns ⟨n⟩ else .throws .Sanity := by
  unfold RegisterId.of_u8 SANITY_ASSERT REGISTER_COUNT
  by_cases h : n < 32 <;> simp [h]

/-- Every identifier that a construction path returns holds an index in
`0..31`. -/
theorem RegisterId.index_in_range (n : Nat) (id : RegisterId) :
    (RegisterId.of_u8 n = .returns id → id.data < 32)
    ∧ (_reg n = .returns id → id.data < 32)
    ∧ (_vreg n = .returns id → id.data < 32) := by
  have key : ∀ m, RegisterId.of_u8 m = .returns id → id.data < 32 := by
    intro m h
    rw [RegisterId.of_u8_validated] at h
    by_cases hm : m < 32
    · simp only [hm, if_true] at h
      injection h with h
      subst h
      exact hm
    · simp only [hm, if_false] at h
      cases h
  exact ⟨key n, key _, key _⟩

/-- The literal operators succeed exactly when the value modulo `2 ^ 8` is
below `REGISTER_COUNT`, and then return that remainder. -/
theorem literal_operators_truncate (n : Nat) :
    (_reg n = if n % 256 < 32 then .returns ⟨n % 256⟩ else .throws .Sanity)
    ∧ (_vreg n = if n % 256 < 32 then .returns ⟨n % 256⟩ else .throws .Sanity) := by
  unfold _reg _vreg
  exact ⟨RegisterId.of_u8_validated _, RegisterId.of_u8_validated _⟩

/-- C21, the code at the failing input: the literals `256_reg` and `256_vreg`
are built without an error and name register 0, and `287_reg` names register
31, although 256 and 287 are not below `REGISTER_COUNT`; `32_reg` and
`RegisterId(32)` raise the sanity exception, `31_reg` and `RegisterId(31)`
succeed. -/
theorem literal_256_is_register_0 :
    _reg 256 = .returns ⟨0⟩
    ∧ _vreg 256 = .returns ⟨0⟩
    ∧ _reg 287 = .returns ⟨31⟩
    ∧ _reg 32 = .throws .Sanity
    ∧ RegisterId.of_u8 32 = .throws .Sanity
    ∧ _reg 31 = .returns ⟨31⟩
    ∧ RegisterId.of_u8 31 = .returns ⟨31⟩ := by
  decide

/-! ## The frame of a scalar write -/

/-- The frame property of `write_generic`, for a value already reduced to the
width of the transfer by the accessor. -/
theorem write_generic_confined (host : Endian) (fm : FrontendMemory) (address : Nat)
    (n : Nat) (low low' : Nat) (hlow : low' = low) :
    ∃ w : FrontendMemory,
      (FrontendMemory.write_generic host n fm address low).2 = w
      ∧ (∀ c, (∀ k, k < n → (address + k) % 2 ^ 64 ≠ c) → w.cells c = fm.cells c)
      ∧ (address + n ≤ 2 ^ 64 → ∀ c, c < address ∨ address + n ≤ c → w.cells c = fm.cells c)
      ∧ w.cells = store_bytes fm.cells address (to_bytes fm.simulated_machine_endian n low)
      ∧ (FrontendMemory.write_generic host n fm address low').2 = w
      ∧ w.calls = fm.calls ++ [⟨true, address, n⟩] := by
  subst hlow
  have frame : ∀ c, (∀ k, k < n → (address + k) % 2 ^ 64 ≠ c) →
      (FrontendMemory.write_generic host n fm address low').2.cells c = fm.cells c := by
    intro c hc
    rw [write_generic_eq]
    exact store_bytes_frame _ _ _ _ (fun k hk => hc k (by rwa [to_bytes_length] at hk))
  refine ⟨_, rfl, frame, ?_, ?_, rfl, ?_⟩
  · intro hfit c hc
    apply frame
    intro k hk
    have e : (address + k) % 2 ^ 64 = address + k := Nat.mod_eq_of_lt (by omega)
    rw [e]
    omega
  · rw [write_generic_eq]
    rfl
  · rw [write_generic_eq]
    simp only [FrontendMemory.write, to_bytes_length]

/-- C22: a scalar write touches only its own bytes. Over the byte store, for
every scalar code of width `N` bits, every address and every value `v`,
`write_ctl` changes no cell other than the `N / 8` cells from `address` on, the
cells it stores are the low `N` bits of `v` in the byte order of the simulated
machine (a value with the same low `N` bits and other upper bits leaves the
same memory), and `write_ctl` with `AC_NONE` leaves the frontend, its memory
and its record of backend calls as they were. -/
theorem scalar_write_frame (host : Endian) (fm : FrontendMemory) (address : Address)
    (v : RegisterValueUnion) (vl : Nat) (hi : Nat) :
    (scalar_write_confined host fm .AC_I8 address v vl 1 hi
      ∧ scalar_write_confined host fm .AC_U8 address v vl 1 hi)
    ∧ (scalar_write_confined host fm .AC_I16 address v vl 2 hi
      ∧ scalar_write_confined host fm .AC_U16 address v vl 2 hi)
    ∧ (scalar_write_confined host fm .AC_I32 address v vl 4 hi
      ∧ scalar_write_confined host fm .AC_U32 address v vl 4 hi)
    ∧ (scalar_write_confined host fm .AC_I64 address v vl 8 hi
      ∧ scalar_write_confined host fm .AC_U64 address v vl 8 hi)
    ∧ fm.write_ctl host .AC_NONE address v vl = some (.returns (), fm) := by
  have e1 : (RegisterValueUnion.I ⟨v.i.data % 2 ^ (8 * 1) + 2 ^ (8 * 1) * hi⟩).i.as_u8
      = v.i.as_u8 := by
    simp only [RegisterValueUnion.i_I, RegisterValue.as_u8]; omega
  have e2 : (RegisterValueUnion.I ⟨v.i.data % 2 ^ (8 * 2) + 2 ^ (8 * 2) * hi⟩).i.as_u16
      = v.i.as_u16 := by
    simp only [RegisterValueUnion.i_I, RegisterValue.as_u16]; omega
  have e4 : (RegisterValueUnion.I ⟨v.i.data % 2 ^ (8 * 4) + 2 ^ (8 * 4) * hi⟩).i.as_u32
      = v.i.as_u32 := by
    simp only [RegisterValueUnion.i_I, RegisterValue.as_u32]; omega
  have e8 : (RegisterValueUnion.I ⟨v.i.data % 2 ^ (8 * 8) + 2 ^ (8 * 8) * hi⟩).i.as_u64
      = v.i.as_u64 := by
    simp only [RegisterValueUnion.i_I, RegisterValue.as_u64]; omega
  have c1 := write_generic_confined host fm address 1 _ _ e1
  have c2 := write_generic_confined host fm address 2 _ _ e2
  have c4 := write_generic_confined host fm address 4 _ _ e4
  have c8 := write_generic_confined host fm address 8 _ _ e8
  obtain ⟨w1, h1, f1, g1, s1, l1, k1⟩ := c1
  obtain ⟨w2, h2, f2, g2, s2, l2, k2⟩ := c2
  obtain ⟨w4, h4, f4, g4, s4, l4, k4⟩ := c4
  obtain ⟨w8, h8, f8, g8, s8, l8, k8⟩ := c8
  refine ⟨⟨⟨w1, ?_, f1, g1, s1, ?_, k1⟩, ⟨w1, ?_, f1, g1, s1, ?_, k1⟩⟩,
    ⟨⟨w2, ?_, f2, g2, s2, ?_, k2⟩, ⟨w2, ?_, f2, g2, s2, ?_, k2⟩⟩,
    ⟨⟨w4, ?_, f4, g4, s4, ?_, k4⟩, ⟨w4, ?_, f4, g4, s4, ?_, k4⟩⟩,
    ⟨⟨w8, ?_, f8, g8, s8, ?_, k8⟩, ⟨w8, ?_, f8, g8, s8, ?_, k8⟩⟩, rfl⟩ <;>
    simp only [FrontendMemory.write_ctl, FrontendMemory.write_u8, FrontendMemory.write_u16,
      FrontendMemory.write_u32, FrontendMemory.write_u64, h1, h2, h4, h8, l1, l2, l4, l8]

/-! ## The division identity -/

/-- The signed reading of a 64-bit pattern is congruent to the value. -/
theorem toSigned64_modEq (n : Nat) : toSigned 64 n ≡ (n : Int) [ZMOD 2 ^ 64] := by
  unfold Int.ModEq
  rw [toSigned64_emod]
  omega

/-- The signed reading of a 32-bit pattern is congruent to the value. -/
theorem toSigned32_modEq (n : Nat) : toSigned 32 n ≡ (n : Int) [ZMOD 2 ^ 32] := by
  unfold Int.ModEq
  rw [toSigned32_emod]
  omega

/-- Unsigned quotient times divisor plus remainder is the dividend, with the
results `UINT_MAX` and the dividend for a zero divisor, modulo `m`. -/
theorem divu_remu_identity (m : Int) (top x y : Nat) :
    (((if y = 0 then top else x / y : Nat) : Int) * (y : Int)
        + ((if y = 0 then x else x % y : Nat) : Int)) ≡ (x : Int) [ZMOD m] := by
  by_cases hy : y = 0
  · subst hy
    simp
  · simp only [hy, if_false]
    have h : x / y * y + x % y = x := Nat.div_add_mod' x y
    have h' : ((x / y : Nat) : Int) * (y : Int) + ((x % y : Nat) : Int) = (x : Int) := by
      exact_mod_cast h
    rw [h']

/-- C23: the division identity, edge cases included. For every pair of
operands and both widths `N`, `DIV(a, b) * b + REM(a, b)` is congruent to `a`
modulo `2 ^ N` on the signed readings, and `DIVU(a, b) * b + REMU(a, b)` is
congruent to `a` modulo `2 ^ N` on the unsigned readings, the operands being
their `N`-bit truncations; this includes `b = 0` and the minimum value divided
by -1. -/
theorem division_identity (a b : RegisterValueUnion) :
    ((mul64_operate .DIV a b * b.i.as_i64 + mul64_operate .REM a b) % 2 ^ 64
        = a.i.as_i64 % 2 ^ 64
      ∧ (mul64_operate .DIVU a b * (b.i.as_u64 : Int) + mul64_operate .REMU a b) % 2 ^ 64
        = (a.i.as_u64 : Int) % 2 ^ 64)
    ∧ ((mul32_operate .DIV a b * b.i.as_i32 + mul32_operate .REM a b) % 2 ^ 32
        = a.i.as_i32 % 2 ^ 32
      ∧ (mul32_operate .DIVU a b * (b.i.as_u32 : Int) + mul32_operate .REMU a b) % 2 ^ 32
        = (a.i.as_u32 : Int) % 2 ^ 32)
    ∧ (mul64_operate .DIV (.I (RegisterValue.of_i64 INT64_MIN)) (.I (RegisterValue.of_i64 (-1)))
          * (-1) + mul64_operate .REM (.I (RegisterValue.of_i64 INT64_MIN))
              (.I (RegisterValue.of_i64 (-1)))) % 2 ^ 64 = INT64_MIN % 2 ^ 64 := by
  refine ⟨⟨?_, ?_⟩, ⟨?_, ?_⟩, by decide⟩
  · simp only [mul64_operate, INT64_MIN]
    by_cases h0 : b.i.as_i64 = 0
    · simp [h0]
    · by_cases hov : a.i.as_i64 = -(2 ^ 63) ∧ b.i.as_i64 = -1
      · simp only [h0, if_false, hov, and_self, if_true]
        decide
      · simp only [h0, if_false, hov, Int.tdiv_add_tmod']
  · simp only [mul64_operate, UINT64_MAX]
    exact Int.ModEq.trans
      (Int.ModEq.add (Int.ModEq.mul_right _ (toSigned64_modEq _)) (toSigned64_modEq _))
      (divu_remu_identity (2 ^ 64) (2 ^ 64 - 1) a.i.as_u64 b.i.as_u64)
  · simp only [mul32_operate, INT32_MIN]
    by_cases h0 : b.i.as_i32 = 0
    · simp [h0]
    · by_cases hov : a.i.as_i32 = -(2 ^ 31) ∧ b.i.as_i32 = -1
      · simp only [h0, if_false, hov, and_self, if_true]
        decide
      · simp only [h0, if_false, hov, Int.tdiv_add_tmod']
  · simp only [mul32_operate, UINT32_MAX]
    exact Int.ModEq.trans
      (Int.ModEq.add (Int.ModEq.mul_right _ (toSigned32_modEq _)) (toSigned32_modEq _))
      (divu_remu_identity (2 ^ 32) (2 ^ 32 - 1) a.i.as_u32 b.i.as_u32)

/-! ## Lane indexing -/

/-- A loop whose run has no defined result keeps none when it runs longer. -/
theorem forLoop_none_mono {σ : Type} (body : Nat → σ → Option σ) (s : σ) (n m : Nat)
    (hnm : n ≤ m) (h : forLoop body n s = none) : forLoop body m s = none := by
  induction m with
  | zero =>
    have : n = 0 := Nat.le_zero.mp hnm
    subst this
    exact h
  | succ k ih =>
    by_cases hk : n ≤ k
    · rw [forLoop, ih hk]
      rfl
    · have : n = k + 1 := by omega
      subst this
      exact h

/-- A loop that reaches an iteration without a defined result has none. -/
theorem forLoop_none_at {σ : Type} (body : Nat → σ → Option σ) (s : σ) (k m : Nat)
    (hkm : k < m) (hk : ∀ r, body k r = none) : forLoop body m s = none := by
  apply forLoop_none_mono body s (k + 1) m hkm
  rw [forLoop]
  cases forLoop body k s with
  | none => rfl
  | some r => exact hk r

/-- A value of `Option` is defined exactly when a condition holds, given that
the condition yields a value and its failure yields none. -/
theorem isSome_eq_decide {α : Type} (o : Option α) (p : Prop) [Decidable p]
    (h1 : p → ∃ x, o = some x) (h2 : ¬ p → o = none) : o.isSome = decide p := by
  by_cases hp : p
  · obtain ⟨x, hx⟩ := h1 hp
    simp [hx, hp]
  · simp [h2 hp, hp]

/-- C24: lane indexing is in bounds exactly when `vl <= 32`. The lane lookups
(`lane`, `get`, `store`) have a defined result exactly for an index in
`0..31`. On vector operands `vec32_operate` (all four vector operations),
`read_vec_u32` and `write_vec_u32` have a defined result exactly when
`vl <= 32`: then every index they use is in `0..31`; for a larger `vl` the loop
reaches index 32, whose lookup is outside the 32-lane array. -/
theorem lane_indexing_in_bounds (A B : VectorRegisterValue) (s : RegisterValueUnion)
    (host : Endian) (fm : FrontendMemory) (address : Address)
    (value uninit : vector_register_storage_t) (vl i x : Nat) :
    ((A.lane i).isSome = decide (i < 32)
      ∧ (value.get i).isSome = decide (i < 32)
      ∧ (uninit.store i x).isSome = decide (i < 32))
    ∧ ((vec32_operate .VADDVV (.V A) (.V B) vl uninit).isSome = decide (vl ≤ 32)
      ∧ (vec32_operate .VADDVI (.V A) s vl uninit).isSome = decide (vl ≤ 32)
      ∧ (vec32_operate .VMULVV (.V A) (.V B) vl uninit).isSome = decide (vl ≤ 32)
      ∧ (vec32_operate .VREDSUM s (.V B) vl uninit).isSome = decide (vl ≤ 32))
    ∧ ((fm.read_vec_u32 host address vl uninit).isSome = decide (vl ≤ 32)
      ∧ (fm.write_vec_u32 host address value vl).isSome = decide (vl ≤ 32))
    ∧ (A.lane 32 = none ∧ value.get 32 = none ∧ uninit.store 32 x = none) := by
  refine ⟨⟨?_, ?_, ?_⟩, ⟨?_, ?_, ?_, ?_⟩, ⟨?_, ?_⟩, ⟨rfl, rfl, rfl⟩⟩
  · by_cases h : i < 32 <;> simp [VectorRegisterValue.lane, h]
  · by_cases h : i < 32 <;> simp [vector_register_storage_t.get, h]
  · by_cases h : i < 32 <;> simp [vector_register_storage_t.store, h]
  · apply isSome_eq_decide
    · intro h
      simp only [vec32_operate, forLoop_lanewise (fun p q => (p + q) % 2 ^ 32) A B vl uninit h,
        Option.map_some']
      exact ⟨_, rfl⟩
    · intro h
      simp only [vec32_operate]
      rw [forLoop_none_at _ _ 32 vl (by omega) (fun r => by
        simp [RegisterValueUnion.v, VectorRegisterValue.lane])]
      rfl
  · apply isSome_eq_decide
    · intro h
      simp only [vec32_operate, forLoop_broadcast A s.i.as_u32 vl uninit h, Option.map_some']
      exact ⟨_, rfl⟩
    · intro h
      simp only [vec32_operate]
      rw [forLoop_none_at _ _ 32 vl (by omega) (fun r => by
        simp [RegisterValueUnion.v, VectorRegisterValue.lane])]
      rfl
  · apply isSome_eq_decide
    · intro h
      simp only [vec32_operate, forLoop_lanewise (fun p q => (p * q) % 2 ^ 32) A B vl uninit h,
        Option.map_some']
      exact ⟨_, rfl⟩
    · intro h
      simp only [vec32_operate]
      rw [forLoop_none_at _ _ 32 vl (by omega) (fun r => by
        simp [RegisterValueUnion.v, VectorRegisterValue.lane])]
      rfl
  · apply isSome_eq_decide
    · intro h
      have e := forLoop_redsum B s.i.data vl h
      simp only [vec32_operate, RegisterValue.as_u32]
      rw [e]
      exact ⟨_, rfl⟩
    · intro h
      simp only [vec32_operate]
      rw [forLoop_none_at _ _ 32 vl (by omega) (fun r => by
        simp [RegisterValueUnion.v, VectorRegisterValue.lane])]
      rfl
  · apply isSome_eq_decide
    · intro h
      obtain ⟨r, hr, _⟩ := read_vec_loop host fm address vl uninit h
      exact ⟨_, hr⟩
    · intro h
      unfold FrontendMemory.read_vec_u32
      exact forLoop_none_at _ _ 32 vl (by omega) (fun r => by
        simp [vector_register_storage_t.store])
  · apply isSome_eq_decide
    · intro h
      obtain ⟨flag, w, hw, _⟩ := write_vec_loop host fm address value vl h
      exact ⟨_, hw⟩
    · intro h
      unfold FrontendMemory.write_vec_u32
      exact forLoop_none_at _ _ 32 vl (by omega) (fun r => by
        simp [vector_register_storage_t.get])

end machine
